import Mathlib

/-!
Verification of the scalabel MOT-evaluation specification.

The evaluation engine (`scalabel/eval/mot.py`) is exercised by its unit tests
in the repository but its own code is not part of the snapshot, so the engine
is modelled from the specification document (spec.md sections 3, 4.1-4.5):
frame-pair matching by greedy maximum-overlap assignment with a deterministic
previous-match / index-order tie-break, per-video accumulation of CLEAR-MOT
events, count-level fusion across videos and categories, and the result table
with AVERAGE and OVERALL rows.  Numbers are rationals (the Python code uses
floats).  The visualizer colour cache (`scalabel/vis/label.py`) is embedded
directly from the source.
-/

/-- Axis-aligned bounding region of an instance (spec section 3). -/
structure Box where
  x1 : ℚ
  y1 : ℚ
  x2 : ℚ
  y2 : ℚ
deriving DecidableEq

/-- Signed area of a box; malformed (non-positive-area) boxes are allowed
as inputs and are treated as unmatchable by the matcher (spec section 4.1). -/
def Box.area (b : Box) : ℚ := (b.x2 - b.x1) * (b.y2 - b.y1)

/-- A box is well formed when both extents are positive. -/
def Box.valid (b : Box) : Prop := b.x1 < b.x2 ∧ b.y1 < b.y2

instance (b : Box) : Decidable b.valid := by unfold Box.valid; infer_instance

/-- Intersection area of two boxes (clamped at zero). -/
def interArea (a b : Box) : ℚ :=
  max 0 (min a.x2 b.x2 - max a.x1 b.x1) * max 0 (min a.y2 b.y2 - max a.y1 b.y1)

/-- Modelled from the spec: intersection-over-union overlap score of two
boxes (spec sections 3 and 4.1).  Rational division by zero yields 0, so a
zero-area (malformed) box gets overlap 0 and is unmatchable, as section 4.1
prescribes. -/
def iou (a b : Box) : ℚ :=
  interArea a b / (a.area + b.area - interArea a b)

/-- Modelled from the spec: one labeled object in one frame (spec section 3
"Instance"): an identity unique within its source and a 2D region. -/
structure Instance where
  id : ℕ
  box : Box
deriving DecidableEq

/-- Modelled from the spec: one frame position holding the ground-truth and
predicted instances present at that position, already restricted to one
category (spec sections 3 and 4.1). -/
structure FramePair where
  gts : List Instance
  preds : List Instance
deriving DecidableEq

/-- A video is the ordered sequence of its frame pairs. -/
abbrev Video := List FramePair

/-- Modelled from the spec: the data of one category - its per-video frame
sequences (driver control flow, spec section 2). -/
structure CatData where
  name : String
  videos : List Video
deriving DecidableEq

/-- Modelled from the spec: category vocabulary and superclass membership
table supplied by the label schema config (spec sections 3 and 6). -/
structure Config where
  categories : List String
  superclasses : List (String × List String)
deriving DecidableEq

/-- Fixed IoU matching cutoff (spec section 3: 0.5 unless configured). -/
def IOU_THR : ℚ := 1 / 2

/-- Association-list lookup (first binding wins). -/
def alookup {α β : Type} [DecidableEq α] : List (α × β) → α → Option β
  | [], _ => none
  | (a, b) :: t, k => if a = k then some b else alookup t k

/-- Association-list update: overwrite the binding of `k`, appending a new
binding when absent. -/
def aset {α β : Type} [DecidableEq α] : List (α × β) → α → β → List (α × β)
  | [], k, v => [(k, v)]
  | (a, b) :: t, k, v => if a = k then (a, v) :: t else (a, b) :: aset t k v

/-- Association-list counter increment (insert 1 when absent). -/
def bump {α : Type} [DecidableEq α] : List (α × ℕ) → α → List (α × ℕ)
  | [], k => [(k, 1)]
  | (a, n) :: t, k => if a = k then (a, n + 1) :: t else (a, n) :: bump t k

/-- Record that identity `k` appears as ground truth in frame `t`: a new
identity opens the lifespan interval (t, t), a known identity extends its
last-appearance frame to `t` (spec section 4.2: a track's lifespan runs from
the first to the last frame in which it appears as ground truth). -/
def spanUpd : List (ℕ × ℕ × ℕ) → ℕ → ℕ → List (ℕ × ℕ × ℕ)
  | [], k, t => [(k, t, t)]
  | (a, f, l) :: tl, k, t =>
    if a = k then (a, f, t) :: tl else (a, f, l) :: spanUpd tl k t

/-- Modelled from the spec: choose the best available predicted instance for
one ground-truth instance (spec section 4.1): only pairs whose overlap
exceeds the threshold are eligible; among eligible candidates the one of
maximal overlap wins, ties preferring the previous frame's match and
otherwise the earliest list position (deterministic tie-break, spec
sections 4.1 and 9). -/
def bestCand (prev : Option ℕ) (g : Instance) : List Instance → Option (Instance × ℚ)
  | [] => none
  | p :: ps =>
    let s := iou g.box p.box
    let rest := bestCand prev g ps
    if s ≤ IOU_THR then rest
    else
      match rest with
      | none => some (p, s)
      | some (q, sq) =>
        if sq > s then some (q, sq)
        else if sq = s ∧ prev = some q.id ∧ prev ≠ some p.id then some (q, sq)
        else some (p, s)

/-- Modelled from the spec: the Frame Pair Matcher (spec section 4.1).
Processes ground-truth instances in order, each consuming its best available
predicted instance; returns the matched (gt id, pred id, overlap) triples,
the missed ground-truth ids, and the count of unmatched predictions. -/
def matchFrame (hist : List (ℕ × ℕ)) : List Instance → List Instance →
    List (ℕ × ℕ × ℚ) × List ℕ × ℕ
  | [], preds => ([], [], preds.length)
  | g :: rest, preds =>
    match bestCand (alookup hist g.id) g preds with
    | none =>
      let r := matchFrame hist rest preds
      (r.1, g.id :: r.2.1, r.2.2)
    | some (p, s) =>
      let r := matchFrame hist rest (preds.erase p)
      ((g.id, p.id, s) :: r.1, r.2.1, r.2.2)

/-- Modelled from the spec: the Per-Video Accumulator state (spec
sections 3 and 4.2): running event counts, the retained identity history,
the set of identities currently in a gap, the current frame position, the
per-identity lifespan table (first and last frame in which the identity
appears as ground truth) and matched-frame counters, and the identity
co-occurrence table feeding IDF1. -/
structure AccState where
  nMatches : ℕ
  overlapSum : ℚ
  misses : ℕ
  fps : ℕ
  idsw : ℕ
  fm : ℕ
  history : List (ℕ × ℕ)
  lost : List ℕ
  frameIdx : ℕ
  spanTbl : List (ℕ × ℕ × ℕ)
  matchedCnt : List (ℕ × ℕ)
  numGt : ℕ
  numPred : ℕ
  coOcc : List ((ℕ × ℕ) × ℕ)

/-- Empty accumulator state. -/
def initAcc : AccState :=
  { nMatches := 0, overlapSum := 0, misses := 0, fps := 0, idsw := 0, fm := 0,
    history := [], lost := [], frameIdx := 0, spanTbl := [], matchedCnt := [],
    numGt := 0, numPred := 0, coOcc := [] }

/-- Modelled from the spec: accumulator update for one matched pair (spec
section 4.2): count the match, record the overlap, detect an identity
switch against the retained history, detect a fragmentation when a lost
identity resumes, and refresh the history. -/
def procMatch (s : AccState) (m : ℕ × ℕ × ℚ) : AccState :=
  { s with
    nMatches := s.nMatches + 1
    overlapSum := s.overlapSum + m.2.2
    idsw := s.idsw +
      (match alookup s.history m.1 with
       | some prev => if prev ≠ m.2.1 then 1 else 0
       | none => 0)
    fm := s.fm + (if m.1 ∈ s.lost then 1 else 0)
    lost := s.lost.erase m.1
    history := aset s.history m.1 m.2.1
    spanTbl := spanUpd s.spanTbl m.1 s.frameIdx
    matchedCnt := bump s.matchedCnt m.1
    numGt := s.numGt + 1 }

/-- Modelled from the spec: accumulator update for one missed ground-truth
instance (spec section 4.2): count the miss and mark a previously tracked
identity as currently in a gap. -/
def procMiss (s : AccState) (gid : ℕ) : AccState :=
  { s with
    misses := s.misses + 1
    spanTbl := spanUpd s.spanTbl gid s.frameIdx
    numGt := s.numGt + 1
    lost :=
      if alookup s.history gid ≠ none ∧ gid ∉ s.lost then gid :: s.lost
      else s.lost }

/-- Identity co-occurrence pairs of one frame: every (gt id, pred id) pair
whose boxes overlap above the threshold (feeds the IDF1 identity-level
matching, spec section 4.3). -/
def coPairs (gts preds : List Instance) : List (ℕ × ℕ) :=
  gts.flatMap (fun g =>
    (preds.filter (fun p => decide (IOU_THR < iou g.box p.box))).map
      (fun p => (g.id, p.id)))

/-- Modelled from the spec: process one frame pair (spec section 4.2): run
the matcher against the current identity history, then fold in the matched
pairs, the misses, the false positives and the co-occurrence counts. -/
def processFrame (s : AccState) (f : FramePair) : AccState :=
  let r := matchFrame s.history f.gts f.preds
  let s1 := r.1.foldl procMatch s
  let s2 := r.2.1.foldl procMiss s1
  { s2 with
    fps := s2.fps + r.2.2
    frameIdx := s2.frameIdx + 1
    numPred := s2.numPred + f.preds.length
    coOcc := (coPairs f.gts f.preds).foldl bump s2.coOcc }

/-- Modelled from the spec: merged raw counts of one evaluation scope (spec
sections 4.3 and 4.4): the additive event counts, the overlap-sum and
match-count pair feeding MOTP, and the identity-level true-positive count
feeding IDF1. -/
structure Counts where
  numGt : ℕ
  numPred : ℕ
  nMatches : ℕ
  overlapSum : ℚ
  misses : ℕ
  fps : ℕ
  idsw : ℕ
  fm : ℕ
  mt : ℕ
  pt : ℕ
  ml : ℕ
  idtp : ℕ
deriving DecidableEq

/-- Zero counts. -/
def Counts.zero : Counts :=
  { numGt := 0, numPred := 0, nMatches := 0, overlapSum := 0, misses := 0,
    fps := 0, idsw := 0, fm := 0, mt := 0, pt := 0, ml := 0, idtp := 0 }

/-- Componentwise sum of counts (counts are additive, spec section 4.4). -/
def Counts.add (a b : Counts) : Counts :=
  { numGt := a.numGt + b.numGt, numPred := a.numPred + b.numPred,
    nMatches := a.nMatches + b.nMatches, overlapSum := a.overlapSum + b.overlapSum,
    misses := a.misses + b.misses, fps := a.fps + b.fps,
    idsw := a.idsw + b.idsw, fm := a.fm + b.fm, mt := a.mt + b.mt,
    pt := a.pt + b.pt, ml := a.ml + b.ml, idtp := a.idtp + b.idtp }

/-- Sum of a list of counts. -/
def sumCounts (l : List Counts) : Counts := l.foldr Counts.add Counts.zero

/-- Heaviest remaining identity-overlap edge (first on ties). -/
def pickMax : List ((ℕ × ℕ) × ℕ) → Option ((ℕ × ℕ) × ℕ)
  | [] => none
  | e :: t =>
    match pickMax t with
    | none => some e
    | some f => if f.2 > e.2 then some f else some e

/-- Fuel-bounded greedy identity-level assignment (spec section 4.3): pick
the heaviest remaining gt-identity/pred-identity edge, discard edges sharing
either endpoint, and sum the chosen weights. -/
def idMatch : ℕ → List ((ℕ × ℕ) × ℕ) → ℕ
  | 0, _ => 0
  | fuel + 1, l =>
    match pickMax l with
    | none => 0
    | some e =>
      e.2 + idMatch fuel
        (l.filter (fun f => decide (f.1.1 ≠ e.1.1 ∧ f.1.2 ≠ e.1.2)))

/-- Identity-level true positives of one video's co-occurrence table. -/
def idtpOf (co : List ((ℕ × ℕ) × ℕ)) : ℕ := idMatch (co.length + 1) co

/-- Modelled from the spec: end-of-video extraction of counts (spec
section 4.2): the raw event totals plus the MT/PT/ML classification of each
ground-truth identity by the fraction of frames in which it was matched
over its total lifespan - the span from the first to the last frame in
which it appears as ground truth, gap frames included (Mostly Tracked at
least 80 percent, Mostly Lost below 20 percent, Partially Tracked in
between). -/
def finalize (s : AccState) : Counts :=
  { numGt := s.numGt, numPred := s.numPred, nMatches := s.nMatches,
    overlapSum := s.overlapSum, misses := s.misses, fps := s.fps,
    idsw := s.idsw, fm := s.fm,
    mt := (s.spanTbl.filter (fun e =>
      decide (4 * (e.2.2 + 1 - e.2.1) ≤
        5 * ((alookup s.matchedCnt e.1).getD 0)))).length,
    pt := (s.spanTbl.filter (fun e =>
      decide (5 * ((alookup s.matchedCnt e.1).getD 0) <
          4 * (e.2.2 + 1 - e.2.1) ∧
        (e.2.2 + 1 - e.2.1) ≤
          5 * ((alookup s.matchedCnt e.1).getD 0)))).length,
    ml := (s.spanTbl.filter (fun e =>
      decide (5 * ((alookup s.matchedCnt e.1).getD 0) <
        (e.2.2 + 1 - e.2.1)))).length,
    idtp := idtpOf s.coOcc }

/-- Counts of one (video, category) evaluation unit. -/
def accVideo (v : Video) : Counts := finalize (v.foldl processFrame initAcc)

/-- Modelled from the spec: a metric cell is either a computed value or the
defined sentinel for an undefined percentage metric; the sentinel renders as
-1 and is distinguishable from every computed score (spec section 4.3). -/
inductive MetricVal
  | val (q : ℚ)
  | undef
deriving DecidableEq

/-- Numeric rendering of a metric cell: the sentinel renders as -1. -/
def MetricVal.render : MetricVal → ℚ
  | .val q => q
  | .undef => -1

/-- Rendering used inside the AVERAGE computation: sentinel categories
participate as 0 (spec section 4.4 fixed convention). -/
def zeroRender : MetricVal → ℚ
  | .val q => q
  | .undef => 0

/-- Modelled from the spec: MOTA from merged counts (spec section 4.3):
1 minus the normalized error sum, as a percentage, with the sentinel for
zero ground-truth instances. -/
def motaOf (c : Counts) : MetricVal :=
  if c.numGt = 0 then .undef
  else .val (100 * (1 - ((c.misses : ℚ) + c.fps + c.idsw) / c.numGt))

/-- Modelled from the spec: MOTP from merged counts (spec section 4.3):
average overlap over all matches as a percentage, with the sentinel when no
matches occurred. -/
def motpOf (c : Counts) : MetricVal :=
  if c.nMatches = 0 then .undef
  else .val (100 * c.overlapSum / (c.nMatches : ℚ))

/-- Modelled from the spec: IDF1 from merged counts (spec section 4.3):
identity-level F1 from the merged identity-level true positives. -/
def idf1Of (c : Counts) : MetricVal :=
  if c.numGt + c.numPred = 0 then .undef
  else .val (100 * (2 * c.idtp : ℚ) / ((c.numGt : ℚ) + (c.numPred : ℚ)))

/-- One row of the result table: a named scope with its merged counts and
the metrics recomputed from those counts (spec sections 4.4 and 4.5). -/
structure Row where
  name : String
  counts : Counts
  mota : MetricVal
  motp : MetricVal
  idf1 : MetricVal
deriving DecidableEq

/-- Build a row from merged counts. -/
def mkRow (n : String) (c : Counts) : Row :=
  { name := n, counts := c, mota := motaOf c, motp := motpOf c,
    idf1 := idf1Of c }

/-- Unweighted mean of metric cells with sentinel cells participating as 0
(the AVERAGE convention, spec section 4.4). -/
def avgOf (l : List MetricVal) : ℚ := (l.map zeroRender).sum / (l.length : ℚ)

/-- Modelled from the spec: the Result Model (spec section 4.5): the
fine-grained category rows, the superclass rows, the AVERAGE metrics and the
OVERALL row. -/
structure ResultTable where
  fineRows : List Row
  superRows : List Row
  avgMota : ℚ
  avgMotp : ℚ
  avgIdf1 : ℚ
  overall : Row
deriving DecidableEq

/-- Videos of one category name in the input. -/
def catVideos (input : List CatData) (c : String) : List Video :=
  (input.filter (fun cd => cd.name == c)).flatMap (fun cd => cd.videos)

/-- Merged counts of one category across all its videos (count-level fusion,
spec section 4.4). -/
def catCounts (input : List CatData) (c : String) : Counts :=
  sumCounts ((catVideos input c).map accVideo)

/-- Modelled from the spec: the evaluation driver `evaluate_track` (spec
sections 2, 4.4 and 4.5): per-category count fusion across videos, superclass
rows by summing member-category counts, the AVERAGE row as the unweighted
metric mean over fine-grained categories, and the OVERALL row recomputed
from the counts of every (video, category) unit. -/
def evaluate (cfg : Config) (input : List CatData) : ResultTable :=
  let fine := cfg.categories.map (fun c => mkRow c (catCounts input c))
  { fineRows := fine
    superRows := cfg.superclasses.map (fun sc =>
      mkRow sc.1 (sumCounts (sc.2.map (fun c => catCounts input c))))
    avgMota := avgOf (fine.map Row.mota)
    avgMotp := avgOf (fine.map Row.motp)
    avgIdf1 := avgOf (fine.map Row.idf1)
    overall := mkRow "OVERALL"
      (sumCounts ((cfg.categories.flatMap (catVideos input)).map accVideo)) }

/-- Row of the table by name: the fine-grained rows, then the superclass
rows, then OVERALL (spec section 4.5). -/
def rowFor (t : ResultTable) (c : String) : Option Row :=
  match (t.fineRows ++ t.superRows).find? (fun r => r.name == c) with
  | some r => some r
  | none => if c = "OVERALL" then some t.overall else none

/-- Modelled from the spec: the flat summary mapping of the thirteen
headline metrics (spec section 4.5): IDF1, MOTA, MOTP, FP, FN, IDSw, MT, PT,
ML, FM from the OVERALL row and mIDF1, mMOTA, mMOTP from the AVERAGE row. -/
def summaryOf (t : ResultTable) : List (String × ℚ) :=
  [("IDF1", t.overall.idf1.render),
   ("MOTA", t.overall.mota.render),
   ("MOTP", t.overall.motp.render),
   ("FP", (t.overall.counts.fps : ℚ)),
   ("FN", (t.overall.counts.misses : ℚ)),
   ("IDSw", (t.overall.counts.idsw : ℚ)),
   ("MT", (t.overall.counts.mt : ℚ)),
   ("PT", (t.overall.counts.pt : ℚ)),
   ("ML", (t.overall.counts.ml : ℚ)),
   ("FM", (t.overall.counts.fm : ℚ)),
   ("mIDF1", t.avgIdf1),
   ("mMOTA", t.avgMota),
   ("mMOTP", t.avgMotp)]

/-- Candidates of one ground-truth instance: the available predictions whose
overlap exceeds the threshold (spec section 4.1 eligibility). -/
def eligOf (g : Instance) (l : List Instance) : List Instance :=
  l.filter (fun p => decide (IOU_THR < iou g.box p.box))

/-- Maximal overlap among the eligible candidates (0 when none). -/
def maxIouOf (g : Instance) (l : List Instance) : ℚ :=
  (eligOf g l).foldr (fun p m => max (iou g.box p.box) m) 0

/-- Declarative description of the matcher's candidate choice used to state
the deterministic tie-break: the first (lowest-index) eligible prediction
attaining the maximal overlap. -/
def specBest (g : Instance) (l : List Instance) : Option (Instance × ℚ) :=
  ((eligOf g l).find? (fun p => decide (iou g.box p.box = maxIouOf g l))).map
    (fun p => (p, maxIouOf g l))

/-- Scalabel 2D box with inclusive pixel corners
(scalabel.label.typing.Box2D). -/
structure Box2D where
  x1 : ℚ
  y1 : ℚ
  x2 : ℚ
  y2 : ℚ
deriving DecidableEq

/-- Modelled from the spec: `bbox_to_box2d` of scalabel/label/transforms.py,
absent from the snapshot; its behaviour is fixed by the unit test
test_bbox_to_box2d (src/scalabel/label/transforms_test.py lines 26-31):
a COCO [x, y, w, h] bbox maps to the inclusive-corner box
(x, y, x + w - 1, y + h - 1).  Lists of any other arity are rejected. -/
def bbox_to_box2d : List ℚ → Option Box2D
  | [x, y, w, h] => some ⟨x, y, x + w - 1, y + h - 1⟩
  | _ => none

/-- Modelled from the spec: `box2d_to_bbox` of scalabel/label/transforms.py,
absent from the snapshot; its behaviour is fixed by the unit test
test_box2d_to_bbox (src/scalabel/label/transforms_test.py lines 63-67):
an inclusive-corner box maps back to [x1, y1, x2 - x1 + 1, y2 - y1 + 1]. -/
def box2d_to_bbox (b : Box2D) : List ℚ :=
  [b.x1, b.y1, b.x2 - b.x1 + 1, b.y2 - b.y1 + 1]

/-- RGB colour triple; embeds the NDArrayF64 colour produced by
helper.random_color() in scalabel/vis/label.py. -/
abbrev Color := ℚ × ℚ × ℚ

/-- A label as consumed by LabelViewer._get_label_color, which reads only
its id (scalabel/vis/label.py lines 184-189). -/
structure Label where
  id : String
deriving DecidableEq

/-- State of scalabel/vis/label.py LabelViewer relevant to colour caching:
the _label_colors dictionary initialized empty in __init__ (line 111),
together with a stream supplying the successive results of the external
random_color() calls. -/
structure LabelViewer where
  label_colors : List (String × Color)
  supply : ℕ → Color
  next : ℕ

/-- Embeds LabelViewer._get_label_color (scalabel/vis/label.py lines
184-189): if the label id is not yet in _label_colors, store a freshly
generated colour under the id; then return the stored colour. -/
def get_label_color (s : LabelViewer) (l : Label) : Color × LabelViewer :=
  match alookup s.label_colors l.id with
  | some c => (c, s)
  | none =>
    let c := s.supply s.next
    (c, { s with
          label_colors := s.label_colors ++ [(l.id, c)]
          next := s.next + 1 })

/-- A sequence of drawing calls, each resolving its label colour through
_get_label_color (as draw_box2ds, draw_box3ds and draw_poly2ds do for each
label, scalabel/vis/label.py lines 245-298). -/
def drawCalls : LabelViewer → List Label → List Color × LabelViewer
  | s, [] => ([], s)
  | s, l :: ls =>
    let r := get_label_color s l
    let r2 := drawCalls r.2 ls
    (r.1 :: r2.1, r2.2)

/-- Well-formed box used by concrete instantiations. -/
def okBox : Box := ⟨0, 0, 10, 10⟩

/-- Zero-area (malformed) box used by concrete instantiations. -/
def degBox : Box := ⟨0, 0, 0, 0⟩

/-- Distant box that overlaps nothing at okBox. -/
def farBox : Box := ⟨100, 100, 110, 110⟩

/-- Single-category configuration used by concrete instantiations. -/
def cfgCar : Config := ⟨["car"], []⟩

/-- Perfect-prediction single-frame input. -/
def okInput : List CatData := [⟨"car", [[⟨[⟨0, okBox⟩], [⟨0, okBox⟩]⟩]]⟩]

/-- Identical ground truth and predictions whose only box is malformed. -/
def degInput : List CatData := [⟨"car", [[⟨[⟨0, degBox⟩], [⟨0, degBox⟩]⟩]]⟩]

/-- Input whose single prediction misses the single ground truth. -/
def missInput : List CatData := [⟨"car", [[⟨[⟨0, okBox⟩], [⟨5, farBox⟩]⟩]]⟩]

/-- Viewer with no cached colours and a concrete colour supply. -/
def demoViewer : LabelViewer := ⟨[], fun n => ((n : ℚ), 0, 0), 0⟩

/-- Drawing-call trace revisiting the id "a" after drawing "b". -/
def demoLabels : List Label := [⟨"a"⟩, ⟨"b"⟩, ⟨"a"⟩]

/-- Total ground-truth instance count of a video. -/
def totalGt (v : Video) : ℕ := (v.map (fun f => f.gts.length)).sum

/-- Number of distinct ground-truth identities appearing in a video. -/
def distinctIds (v : Video) : ℕ :=
  ((v.flatMap (fun f => f.gts)).map Instance.id).toFinset.card

/-- Total number of distinct ground-truth identities summed over the
(video, category) evaluation units (identities are unique within one video
and one source, spec section 3). -/
def totalIdentities (cfg : Config) (input : List CatData) : ℕ :=
  (cfg.categories.map (fun c =>
    ((catVideos input c).map distinctIds).sum)).sum

/-- A frame pair is perfect when its predictions are literally its ground
truth and every ground-truth box is well formed. -/
def perfectFrame (f : FramePair) : Prop :=
  f.preds = f.gts ∧ (∀ g ∈ f.gts, g.box.valid) ∧
  (f.gts.map Instance.id).Nodup

instance (f : FramePair) : Decidable (perfectFrame f) := by
  unfold perfectFrame; infer_instance

/-- Frame indices (starting at `t`) of the frames of a video in which
identity `k` appears as ground truth. -/
def framesWith : Video → ℕ → ℕ → List ℕ
  | [], _, _ => []
  | f :: rest, t, k =>
    if k ∈ f.gts.map Instance.id then t :: framesWith rest (t + 1) k
    else framesWith rest (t + 1) k

/-- Ground-truth identities appearing anywhere in a video. -/
def vidIds (v : Video) : List ℕ :=
  (v.flatMap (fun f => f.gts)).map Instance.id

/-- A video's ground-truth presence is gap-free: every identity appears in
a contiguous block of frames, so the number of frames containing it equals
its lifespan, last appearance minus first appearance plus one. -/
def contiguousVideo (v : Video) : Prop :=
  ∀ k ∈ vidIds v, (framesWith v 0 k).length =
    ((framesWith v 0 k).getLast?.getD 0) + 1 -
      ((framesWith v 0 k).head?.getD 0)

instance (v : Video) : Decidable (contiguousVideo v) := by
  unfold contiguousVideo; infer_instance

/-- Effect of a list of new appearance frames on a lifespan entry: no new
appearance leaves the entry alone; otherwise the first appearance is the
old one when present (else the first new frame) and the last appearance is
the last new frame. -/
def spanMerge (o : Option (ℕ × ℕ)) (ts : List ℕ) : Option (ℕ × ℕ) :=
  match ts with
  | [] => o
  | t :: ts' => some ((o.map Prod.fst).getD t, ts'.getLast?.getD t)

/-- Effect of `n` new matched frames on a matched-frame counter entry. -/
def cntMerge (o : Option ℕ) (n : ℕ) : Option ℕ :=
  if n = 0 then o else
    match o with
    | none => some n
    | some m => some (m + n)

/-- Invariant of the accumulator while it processes perfectly predicted
frames: no error events, the identity history maps every identity to
itself, every ground-truth instance is matched with overlap 1, and the
lifespan-table keys are distinct. -/
def PerfBase (s : AccState) : Prop :=
  s.misses = 0 ∧ s.fps = 0 ∧ s.idsw = 0 ∧ s.fm = 0 ∧ s.lost = [] ∧
  (∀ e ∈ s.history, e.2 = e.1) ∧
  s.nMatches = s.numGt ∧ s.overlapSum = (s.numGt : ℚ) ∧
  (s.spanTbl.map Prod.fst).Nodup

theorem counts_add_assoc (a b c : Counts) : (a.add b).add c = a.add (b.add c) := by
  simp [Counts.add, add_assoc]

theorem counts_zero_add (a : Counts) : Counts.zero.add a = a := by
  cases a; simp [Counts.add, Counts.zero]

theorem sumCounts_nil : sumCounts [] = Counts.zero := rfl

theorem sumCounts_cons (c : Counts) (l : List Counts) :
    sumCounts (c :: l) = c.add (sumCounts l) := rfl

theorem sumCounts_append (l₁ l₂ : List Counts) :
    sumCounts (l₁ ++ l₂) = (sumCounts l₁).add (sumCounts l₂) := by
  induction l₁ with
  | nil => simp [sumCounts_nil, counts_zero_add]
  | cons a t ih => simp [sumCounts_cons, ih, counts_add_assoc]

theorem sumCounts_flatMap (f : String → List Video) (cats : List String) :
    sumCounts ((cats.flatMap f).map accVideo) =
      sumCounts (cats.map (fun c => sumCounts ((f c).map accVideo))) := by
  induction cats with
  | nil => rfl
  | cons c t ih =>
    simp only [List.flatMap_cons, List.map_append, List.map_cons,
      sumCounts_append, sumCounts_cons, ih]

/-- C3: for every input, the OVERALL row's counts (FP, FN, IDSw, FM, MT, PT,
ML and the match-count/overlap-sum pair feeding MOTP) are exactly the
componentwise sum of the counts of all fine-grained category rows, and the
OVERALL metrics are recomputed from these summed counts rather than obtained
by averaging per-category metrics. -/
theorem overall_count_fusion (cfg : Config) (input : List CatData) :
    (evaluate cfg input).overall.counts =
      sumCounts ((evaluate cfg input).fineRows.map Row.counts) ∧
    (evaluate cfg input).overall.mota =
      motaOf (sumCounts ((evaluate cfg input).fineRows.map Row.counts)) ∧
    (evaluate cfg input).overall.motp =
      motpOf (sumCounts ((evaluate cfg input).fineRows.map Row.counts)) ∧
    (evaluate cfg input).overall.idf1 =
      idf1Of (sumCounts ((evaluate cfg input).fineRows.map Row.counts)) := by
  have key : sumCounts ((cfg.categories.flatMap (catVideos input)).map accVideo) =
      sumCounts ((evaluate cfg input).fineRows.map Row.counts) := by
    rw [sumCounts_flatMap]
    simp [evaluate, List.map_map, Function.comp_def, mkRow, catCounts]
  refine ⟨?_, ?_, ?_, ?_⟩ <;>
    simp only [evaluate, mkRow] <;> rw [key] <;> rfl

theorem find_append_some {α : Type} (p : α → Bool) (l₁ l₂ : List α) (r : α)
    (h : l₁.find? p = some r) : (l₁ ++ l₂).find? p = some r := by
  induction l₁ with
  | nil => simp [List.find?] at h
  | cons a t ih =>
    by_cases hp : p a
    · rw [List.find?_cons_of_pos _ hp] at h
      rw [List.cons_append, List.find?_cons_of_pos _ hp]
      exact h
    · rw [List.find?_cons_of_neg _ hp] at h
      rw [List.cons_append, List.find?_cons_of_neg _ hp]
      exact ih h

theorem find_mkRow (input : List CatData) (cats : List String) (c : String)
    (hc : c ∈ cats) :
    (cats.map (fun n => mkRow n (catCounts input n))).find?
        (fun r => r.name == c) = some (mkRow c (catCounts input c)) := by
  induction cats with
  | nil => cases hc
  | cons n t ih =>
    by_cases h : n = c
    · subst h
      simp [mkRow]
    · have hmem : c ∈ t := by
        rcases List.mem_cons.mp hc with h' | h'
        · exact absurd h'.symm h
        · exact h'
      simp only [List.map_cons]
      rw [List.find?_cons_of_neg]
      · exact ih hmem
      · simp [mkRow, h]

theorem rowFor_fine (cfg : Config) (input : List CatData) (c : String)
    (hc : c ∈ cfg.categories) :
    rowFor (evaluate cfg input) c = some (mkRow c (catCounts input c)) := by
  unfold rowFor
  have hfind := find_append_some (fun r => r.name == c)
    ((evaluate cfg input).fineRows) ((evaluate cfg input).superRows)
    (mkRow c (catCounts input c)) (by
      show ((evaluate cfg input).fineRows).find? _ = _
      simp only [evaluate]
      exact find_mkRow input cfg.categories c hc)
  rw [hfind]

theorem foldl_procMatch_bal (l : List (ℕ × ℕ × ℚ)) (s : AccState) :
    (l.foldl procMatch s).numGt = s.numGt + l.length ∧
    (l.foldl procMatch s).nMatches = s.nMatches + l.length ∧
    (l.foldl procMatch s).misses = s.misses := by
  induction l generalizing s with
  | nil => simp
  | cons a t ih =>
    obtain ⟨h1, h2, h3⟩ := ih (procMatch s a)
    have e1 : (procMatch s a).numGt = s.numGt + 1 := rfl
    have e2 : (procMatch s a).nMatches = s.nMatches + 1 := rfl
    have e3 : (procMatch s a).misses = s.misses := rfl
    refine ⟨?_, ?_, ?_⟩ <;>
      simp only [List.foldl_cons, List.length_cons] <;> omega

theorem foldl_procMiss_bal (l : List ℕ) (s : AccState) :
    (l.foldl procMiss s).numGt = s.numGt + l.length ∧
    (l.foldl procMiss s).misses = s.misses + l.length ∧
    (l.foldl procMiss s).nMatches = s.nMatches := by
  induction l generalizing s with
  | nil => simp
  | cons a t ih =>
    obtain ⟨h1, h2, h3⟩ := ih (procMiss s a)
    have e1 : (procMiss s a).numGt = s.numGt + 1 := rfl
    have e2 : (procMiss s a).misses = s.misses + 1 := rfl
    have e3 : (procMiss s a).nMatches = s.nMatches := rfl
    refine ⟨?_, ?_, ?_⟩ <;>
      simp only [List.foldl_cons, List.length_cons] <;> omega

theorem processFrame_bal (s : AccState) (f : FramePair)
    (h : s.numGt = s.nMatches + s.misses) :
    (processFrame s f).numGt =
      (processFrame s f).nMatches + (processFrame s f).misses := by
  obtain ⟨a1, a2, a3⟩ := foldl_procMatch_bal
    (matchFrame s.history f.gts f.preds).1 s
  obtain ⟨b1, b2, b3⟩ := foldl_procMiss_bal
    (matchFrame s.history f.gts f.preds).2.1
    ((matchFrame s.history f.gts f.preds).1.foldl procMatch s)
  simp only [processFrame]
  omega

theorem accVideo_bal (v : Video) :
    (accVideo v).numGt = (accVideo v).nMatches + (accVideo v).misses := by
  have key : ∀ (fs : List FramePair) (s : AccState),
      s.numGt = s.nMatches + s.misses →
      (fs.foldl processFrame s).numGt =
        (fs.foldl processFrame s).nMatches + (fs.foldl processFrame s).misses := by
    intro fs
    induction fs with
    | nil => intro s h; simpa using h
    | cons f t ih =>
      intro s h
      exact ih (processFrame s f) (processFrame_bal s f h)
  have h := key v initAcc rfl
  simpa [accVideo, finalize] using h

theorem sum_numGt (l : List Counts) :
    (sumCounts l).numGt = (l.map Counts.numGt).sum := by
  induction l <;> simp [sumCounts_nil, sumCounts_cons, Counts.add, Counts.zero, *]

theorem sum_nMatches (l : List Counts) :
    (sumCounts l).nMatches = (l.map Counts.nMatches).sum := by
  induction l <;> simp [sumCounts_nil, sumCounts_cons, Counts.add, Counts.zero, *]

theorem sum_misses (l : List Counts) :
    (sumCounts l).misses = (l.map Counts.misses).sum := by
  induction l <;> simp [sumCounts_nil, sumCounts_cons, Counts.add, Counts.zero, *]

theorem catCounts_bal (input : List CatData) (c : String) :
    (catCounts input c).numGt =
      (catCounts input c).nMatches + (catCounts input c).misses := by
  unfold catCounts
  rw [sum_numGt, sum_nMatches, sum_misses]
  induction catVideos input c with
  | nil => simp
  | cons v t ih =>
    simp only [List.map_cons, List.map_map, List.sum_cons] at ih ⊢
    have hv := accVideo_bal v
    omega

/-- C2: for every category of the configuration with zero ground-truth
instances across all videos, the result table still contains a row for that
category whose MOTA and MOTP are the defined sentinel (rendered as -1, not a
division error), and the sentinel is distinguishable from every legitimately
computed score. -/
theorem zero_gt_category_sentinel (cfg : Config) (input : List CatData)
    (c : String) (hc : c ∈ cfg.categories)
    (h0 : (catCounts input c).numGt = 0) :
    ∃ row : Row, rowFor (evaluate cfg input) c = some row ∧
      row.mota = MetricVal.undef ∧ row.motp = MetricVal.undef ∧
      row.mota.render = -1 ∧ row.motp.render = -1 ∧
      ∀ q : ℚ, MetricVal.undef ≠ MetricVal.val q := by
  have hm : (catCounts input c).nMatches = 0 := by
    have := catCounts_bal input c
    omega
  have hmota : motaOf (catCounts input c) = MetricVal.undef := by
    simp [motaOf, h0]
  have hmotp : motpOf (catCounts input c) = MetricVal.undef := by
    simp [motpOf, hm]
  refine ⟨mkRow c (catCounts input c), rowFor_fine cfg input c hc, ?_, ?_, ?_, ?_, ?_⟩
  · simpa [mkRow] using hmota
  · simpa [mkRow] using hmotp
  · simp [mkRow, hmota, MetricVal.render]
  · simp [mkRow, hmotp, MetricVal.render]
  · intro q h
    cases h

attribute [local semireducible] Rat.add Rat.mul Rat.sub Rat.inv

theorem zero_gt_category_sentinel_inst :
    ("car" ∈ cfgCar.categories ∧
      (catCounts ([] : List CatData) "car").numGt = 0) ∧
    (∃ row : Row, rowFor (evaluate cfgCar []) "car" = some row ∧
      row.mota = MetricVal.undef ∧ row.motp = MetricVal.undef ∧
      row.mota.render = -1 ∧ row.motp.render = -1 ∧
      ∀ q : ℚ, MetricVal.undef ≠ MetricVal.val q) :=
  ⟨⟨by decide, by decide⟩,
    zero_gt_category_sentinel cfgCar [] "car" (by decide) (by decide)⟩

/-- C4: for every input, the AVERAGE metrics (and the summary entries mMOTA,
mMOTP, mIDF1) are the unweighted arithmetic mean of the corresponding metric
over the fine-grained categories only, with sentinel categories
participating under the fixed convention of contributing 0 to the sum while
remaining in the denominator. -/
theorem average_metric_mean (cfg : Config) (input : List CatData) :
    (evaluate cfg input).avgMota =
      (cfg.categories.map
        (fun c => zeroRender (motaOf (catCounts input c)))).sum /
        (cfg.categories.length : ℚ) ∧
    (evaluate cfg input).avgMotp =
      (cfg.categories.map
        (fun c => zeroRender (motpOf (catCounts input c)))).sum /
        (cfg.categories.length : ℚ) ∧
    (evaluate cfg input).avgIdf1 =
      (cfg.categories.map
        (fun c => zeroRender (idf1Of (catCounts input c)))).sum /
        (cfg.categories.length : ℚ) ∧
    (summaryOf (evaluate cfg input)).find? (fun e => e.1 == "mMOTA") =
      some ("mMOTA", (evaluate cfg input).avgMota) ∧
    (summaryOf (evaluate cfg input)).find? (fun e => e.1 == "mMOTP") =
      some ("mMOTP", (evaluate cfg input).avgMotp) ∧
    (summaryOf (evaluate cfg input)).find? (fun e => e.1 == "mIDF1") =
      some ("mIDF1", (evaluate cfg input).avgIdf1) := by
  refine ⟨?_, ?_, ?_, rfl, rfl, rfl⟩ <;>
    simp [evaluate, avgOf, mkRow, List.map_map, Function.comp_def]

/-- C5: for every evaluation result, the summary mapping has exactly the
thirteen headline keys, the first ten taken from the OVERALL row and the
three m-prefixed means taken from the AVERAGE row. -/
theorem summary_thirteen_keys (cfg : Config) (input : List CatData) :
    (summaryOf (evaluate cfg input)).map Prod.fst =
      ["IDF1", "MOTA", "MOTP", "FP", "FN", "IDSw", "MT", "PT", "ML", "FM",
       "mIDF1", "mMOTA", "mMOTP"] ∧
    (summaryOf (evaluate cfg input)).find? (fun e => e.1 == "MOTA") =
      some ("MOTA", (evaluate cfg input).overall.mota.render) ∧
    (summaryOf (evaluate cfg input)).find? (fun e => e.1 == "FN") =
      some ("FN", ((evaluate cfg input).overall.counts.misses : ℚ)) ∧
    (summaryOf (evaluate cfg input)).find? (fun e => e.1 == "mMOTA") =
      some ("mMOTA", (evaluate cfg input).avgMota) :=
  ⟨rfl, rfl, rfl, rfl⟩

/-- C6: for every fine-grained category with at least one ground-truth
instance, the table's MOTA is the computed value
100 * (1 - (FN + FP + IDSw) / numGt), never the sentinel; when the error
count exceeds the ground-truth count this value is negative, and a negative
MOTA is a valid score. -/
theorem mota_formula_negative_valid (cfg : Config) (input : List CatData)
    (c : String) (hc : c ∈ cfg.categories)
    (h0 : 0 < (catCounts input c).numGt) :
    ∃ row : Row, rowFor (evaluate cfg input) c = some row ∧
      row.counts = catCounts input c ∧
      row.mota = MetricVal.val (100 * (1 -
        (((catCounts input c).misses : ℚ) + (catCounts input c).fps +
          (catCounts input c).idsw) / ((catCounts input c).numGt : ℚ))) ∧
      row.mota ≠ MetricVal.undef ∧
      ((catCounts input c).numGt <
          (catCounts input c).misses + (catCounts input c).fps +
            (catCounts input c).idsw →
        ∃ q : ℚ, row.mota = MetricVal.val q ∧ q < 0) := by
  have hne : (catCounts input c).numGt ≠ 0 := Nat.pos_iff_ne_zero.mp h0
  have hmota : motaOf (catCounts input c) = MetricVal.val (100 * (1 -
      (((catCounts input c).misses : ℚ) + (catCounts input c).fps +
        (catCounts input c).idsw) / ((catCounts input c).numGt : ℚ))) := by
    simp [motaOf, hne]
  refine ⟨mkRow c (catCounts input c), rowFor_fine cfg input c hc, rfl,
    ?_, ?_, ?_⟩
  · simpa [mkRow] using hmota
  · simp [mkRow, hmota]
  · intro hlt
    refine ⟨_, by simpa [mkRow] using hmota, ?_⟩
    have hgpos : (0 : ℚ) < ((catCounts input c).numGt : ℚ) := by
      exact_mod_cast h0
    have hdiv : 1 < (((catCounts input c).misses : ℚ) +
        (catCounts input c).fps + (catCounts input c).idsw) /
        ((catCounts input c).numGt : ℚ) := by
      rw [one_lt_div hgpos]
      exact_mod_cast hlt
    nlinarith [hdiv]

theorem mota_formula_negative_valid_inst :
    ("car" ∈ cfgCar.categories ∧ 0 < (catCounts missInput "car").numGt) ∧
    (∃ row : Row, rowFor (evaluate cfgCar missInput) "car" = some row ∧
      row.counts = catCounts missInput "car" ∧
      row.mota = MetricVal.val (100 * (1 -
        (((catCounts missInput "car").misses : ℚ) +
          (catCounts missInput "car").fps +
          (catCounts missInput "car").idsw) /
          ((catCounts missInput "car").numGt : ℚ))) ∧
      row.mota ≠ MetricVal.undef ∧
      ((catCounts missInput "car").numGt <
          (catCounts missInput "car").misses +
            (catCounts missInput "car").fps +
            (catCounts missInput "car").idsw →
        ∃ q : ℚ, row.mota = MetricVal.val q ∧ q < 0)) :=
  ⟨⟨by decide, by decide⟩,
    mota_formula_negative_valid cfgCar missInput "car" (by decide) (by decide)⟩

/-- C9: bbox_to_box2d and box2d_to_bbox follow the inclusive-pixel
convention, bbox_to_box2d mapping [x, y, w, h] to the corners
(x, y, x + w - 1, y + h - 1) and box2d_to_bbox mapping back to
[x1, y1, x2 - x1 + 1, y2 - y1 + 1], so for every bbox with w, h at least 1
the round trip through a Box2D is the identity. -/
theorem bbox_box2d_inverse (x y w h : ℚ) :
    bbox_to_box2d [x, y, w, h] = some ⟨x, y, x + w - 1, y + h - 1⟩ ∧
    (∀ b : Box2D, box2d_to_bbox b =
      [b.x1, b.y1, b.x2 - b.x1 + 1, b.y2 - b.y1 + 1]) ∧
    (1 ≤ w → 1 ≤ h →
      (bbox_to_box2d [x, y, w, h]).map box2d_to_bbox = some [x, y, w, h]) := by
  refine ⟨rfl, fun b => rfl, fun hw hh => ?_⟩
  show some (box2d_to_bbox ⟨x, y, x + w - 1, y + h - 1⟩) = some [x, y, w, h]
  have h2 : x + w - 1 - x + 1 = w := by ring
  have h3 : y + h - 1 - y + 1 = h := by ring
  simp [box2d_to_bbox, h2, h3]

theorem bbox_box2d_inverse_inst :
    ((1 : ℚ) ≤ 10 ∧ (1 : ℚ) ≤ 10) ∧
    (bbox_to_box2d [10, 10, 10, 10]).map box2d_to_bbox =
      some [10, 10, 10, 10] :=
  ⟨by norm_num,
    (bbox_box2d_inverse 10 10 10 10).2.2 (by norm_num) (by norm_num)⟩

theorem alookup_append_of_some {α β : Type} [DecidableEq α]
    (l₁ l₂ : List (α × β)) (k : α) (v : β) (h : alookup l₁ k = some v) :
    alookup (l₁ ++ l₂) k = some v := by
  induction l₁ with
  | nil => simp [alookup] at h
  | cons a t ih =>
    obtain ⟨a1, a2⟩ := a
    by_cases hk : a1 = k
    · simpa [alookup, hk] using h
    · rw [List.cons_append]
      simp only [alookup, hk, if_false] at h ⊢
      exact ih h

theorem alookup_append_of_none {α β : Type} [DecidableEq α]
    (l₁ l₂ : List (α × β)) (k : α) (h : alookup l₁ k = none) :
    alookup (l₁ ++ l₂) k = alookup l₂ k := by
  induction l₁ with
  | nil => simp
  | cons a t ih =>
    obtain ⟨a1, a2⟩ := a
    by_cases hk : a1 = k
    · simp [alookup, hk] at h
    · rw [List.cons_append]
      simp only [alookup, hk, if_false] at h ⊢
      exact ih h

theorem glc_mono (s : LabelViewer) (l : Label) (k : String) (c : Color)
    (h : alookup s.label_colors k = some c) :
    alookup (get_label_color s l).2.label_colors k = some c := by
  unfold get_label_color
  cases hl : alookup s.label_colors l.id with
  | some c' => simpa using h
  | none =>
    simp only []
    exact alookup_append_of_some _ _ _ _ h

theorem glc_post (s : LabelViewer) (l : Label) :
    alookup (get_label_color s l).2.label_colors l.id =
      some (get_label_color s l).1 := by
  unfold get_label_color
  cases hl : alookup s.label_colors l.id with
  | some c => simpa using hl
  | none =>
    simp only []
    rw [alookup_append_of_none _ _ _ hl]
    simp [alookup]

theorem drawCalls_mono (ls : List Label) (s : LabelViewer) (k : String)
    (c : Color) (h : alookup s.label_colors k = some c) :
    alookup (drawCalls s ls).2.label_colors k = some c := by
  induction ls generalizing s with
  | nil => simpa [drawCalls] using h
  | cons l t ih =>
    simp only [drawCalls]
    exact ih _ (glc_mono s l k c h)

theorem drawCalls_post (ls : List Label) (s : LabelViewer) (i : ℕ) (l : Label)
    (c : Color) (hl : ls[i]? = some l) (hc : (drawCalls s ls).1[i]? = some c) :
    alookup (drawCalls s ls).2.label_colors l.id = some c := by
  induction ls generalizing s i with
  | nil => simp at hl
  | cons a t ih =>
    cases i with
    | zero =>
      have ha : a = l := by simpa using hl
      subst ha
      simp only [drawCalls] at hc ⊢
      have hc' : (get_label_color s a).1 = c := by simpa using hc
      subst hc'
      exact drawCalls_mono t _ _ _ (glc_post s a)
    | succ n =>
      simp only [drawCalls] at hc ⊢
      have hl' : t[n]? = some l := by simpa using hl
      have hc' : (drawCalls (get_label_color s a).2 t).1[n]? = some c := by
        simpa using hc
      exact ih _ _ hl' hc'

/-- C10: for every viewer state and every sequence of drawing calls, the
colour cache only grows (stored colours are never overwritten), the colour
returned by each call is the one stored under the label's id afterwards, and
any two calls whose labels share an id return the same colour - so a tracked
object keeps one colour across frames. -/
theorem label_color_stable (s : LabelViewer) (ls : List Label) :
    (∀ k c, alookup s.label_colors k = some c →
      alookup (drawCalls s ls).2.label_colors k = some c) ∧
    (∀ (i : ℕ) (l : Label) (c : Color), ls[i]? = some l →
      (drawCalls s ls).1[i]? = some c →
      alookup (drawCalls s ls).2.label_colors l.id = some c) ∧
    (∀ (i j : ℕ) (li lj : Label) (ci cj : Color),
      ls[i]? = some li → ls[j]? = some lj → li.id = lj.id →
      (drawCalls s ls).1[i]? = some ci → (drawCalls s ls).1[j]? = some cj →
      ci = cj) := by
  refine ⟨fun k c h => drawCalls_mono ls s k c h,
    fun i l c hl hc => drawCalls_post ls s i l c hl hc,
    fun i j li lj ci cj hi hj hid hci hcj => ?_⟩
  have h1 := drawCalls_post ls s i li ci hi hci
  have h2 := drawCalls_post ls s j lj cj hj hcj
  rw [hid, h2] at h1
  exact (Option.some.injEq _ _).mp h1.symm

theorem label_color_stable_inst :
    (demoLabels[0]? = some ⟨"a"⟩ ∧ demoLabels[2]? = some ⟨"a"⟩ ∧
      (Label.mk "a").id = (Label.mk "a").id ∧
      (drawCalls demoViewer demoLabels).1[0]? = some (demoViewer.supply 0) ∧
      (drawCalls demoViewer demoLabels).1[2]? = some (demoViewer.supply 0)) ∧
    demoViewer.supply 0 = demoViewer.supply 0 :=
  ⟨⟨rfl, rfl, rfl, rfl, rfl⟩,
    label_color_stable demoViewer demoLabels |>.2.2 0 2 ⟨"a"⟩ ⟨"a"⟩
      (demoViewer.supply 0) (demoViewer.supply 0) rfl rfl rfl rfl rfl⟩

theorem eligOf_cons_pos (g p : Instance) (ps : List Instance)
    (h : IOU_THR < iou g.box p.box) :
    eligOf g (p :: ps) = p :: eligOf g ps := by
  simp [eligOf, List.filter_cons, h]

theorem eligOf_cons_neg (g p : Instance) (ps : List Instance)
    (h : ¬ IOU_THR < iou g.box p.box) :
    eligOf g (p :: ps) = eligOf g ps := by
  simp [eligOf, List.filter_cons, h]

theorem maxIouOf_cons_neg (g p : Instance) (ps : List Instance)
    (h : ¬ IOU_THR < iou g.box p.box) :
    maxIouOf g (p :: ps) = maxIouOf g ps := by
  unfold maxIouOf
  rw [eligOf_cons_neg g p ps h]

theorem maxIouOf_cons_pos (g p : Instance) (ps : List Instance)
    (h : IOU_THR < iou g.box p.box) :
    maxIouOf g (p :: ps) = max (iou g.box p.box) (maxIouOf g ps) := by
  unfold maxIouOf
  rw [eligOf_cons_pos g p ps h]
  rfl

theorem eligOf_pos (g : Instance) (l : List Instance) :
    ∀ x ∈ eligOf g l, IOU_THR < iou g.box x.box := by
  intro x hx
  have := List.of_mem_filter hx
  simpa using this

theorem foldr_max_attained (g : Instance) (xs : List Instance)
    (hpos : ∀ x ∈ xs, 0 < iou g.box x.box) (hne : xs ≠ []) :
    ∃ q ∈ xs, iou g.box q.box =
      xs.foldr (fun p m => max (iou g.box p.box) m) 0 := by
  induction xs with
  | nil => exact absurd rfl hne
  | cons x t ih =>
    cases t with
    | nil =>
      refine ⟨x, List.mem_singleton_self x, ?_⟩
      simp only [List.foldr_cons, List.foldr_nil]
      exact (max_eq_left (le_of_lt (hpos x (List.mem_singleton_self x)))).symm
    | cons y u =>
      have hpos' : ∀ z ∈ y :: u, 0 < iou g.box z.box := by
        intro z hz
        exact hpos z (List.mem_cons_of_mem x hz)
      obtain ⟨q, hq, hqe⟩ := ih hpos' (by simp)
      by_cases hle : (y :: u).foldr (fun p m => max (iou g.box p.box) m) 0 ≤
          iou g.box x.box
      · refine ⟨x, List.mem_cons_self x _, ?_⟩
        simp only [List.foldr_cons] at hle ⊢
        exact (max_eq_left hle).symm
      · refine ⟨q, List.mem_cons_of_mem x hq, ?_⟩
        simp only [List.foldr_cons] at hle ⊢
        rw [max_eq_right (le_of_lt (lt_of_not_le hle))]
        exact hqe

theorem maxIou_attained (g : Instance) (l : List Instance)
    (hne : eligOf g l ≠ []) :
    ∃ q ∈ eligOf g l, iou g.box q.box = maxIouOf g l := by
  have hpos : ∀ x ∈ eligOf g l, 0 < iou g.box x.box := by
    intro x hx
    have h1 := eligOf_pos g l x hx
    have h2 : (0 : ℚ) < IOU_THR := by norm_num [IOU_THR]
    exact lt_trans h2 h1
  exact foldr_max_attained g (eligOf g l) hpos hne

theorem specBest_eq_some (g : Instance) (l : List Instance) (q : Instance)
    (sq : ℚ) (h : specBest g l = some (q, sq)) :
    sq = maxIouOf g l ∧
    (eligOf g l).find? (fun p => decide (iou g.box p.box = maxIouOf g l)) =
      some q ∧
    iou g.box q.box = sq := by
  unfold specBest at h
  cases hf : (eligOf g l).find?
      (fun p => decide (iou g.box p.box = maxIouOf g l)) with
  | none => rw [hf] at h; simp at h
  | some q' =>
    rw [hf] at h
    simp only [Option.map_some', Option.some.injEq, Prod.mk.injEq] at h
    obtain ⟨hq, hsq⟩ := h
    have hd0 := List.find?_some hf
    have hd : iou g.box q'.box = maxIouOf g l := of_decide_eq_true hd0
    refine ⟨hsq.symm, ?_, ?_⟩
    · exact congrArg some hq
    · rw [← hq, hd, hsq]

theorem specBest_none_elig (g : Instance) (l : List Instance)
    (h : specBest g l = none) : eligOf g l = [] := by
  by_contra hne
  obtain ⟨q, hq, hqe⟩ := maxIou_attained g l hne
  unfold specBest at h
  rw [Option.map_eq_none'] at h
  have := List.find?_eq_none.mp h q hq
  simp [hqe] at this

theorem bestCand_none_specBest (g : Instance) (l : List Instance) :
    bestCand none g l = specBest g l := by
  induction l with
  | nil => rfl
  | cons p ps ih =>
    simp only [bestCand]
    by_cases hs : iou g.box p.box ≤ IOU_THR
    · rw [if_pos hs, ih]
      have hneg : ¬ IOU_THR < iou g.box p.box := not_lt.mpr hs
      unfold specBest
      rw [eligOf_cons_neg g p ps hneg, maxIouOf_cons_neg g p ps hneg]
    · rw [if_neg hs]
      have hpos : IOU_THR < iou g.box p.box := lt_of_not_le hs
      have hthr : (0 : ℚ) < IOU_THR := by norm_num [IOU_THR]
      have hp0 : (0 : ℚ) ≤ iou g.box p.box :=
        le_of_lt (lt_trans hthr hpos)
      cases hrest : bestCand none g ps with
      | none =>
        have helig : eligOf g ps = [] :=
          specBest_none_elig g ps (hrest ▸ ih.symm)
        unfold specBest
        rw [eligOf_cons_pos g p ps hpos, helig]
        have hmax : maxIouOf g (p :: ps) = iou g.box p.box := by
          rw [maxIouOf_cons_pos g p ps hpos]
          have : maxIouOf g ps = 0 := by
            unfold maxIouOf
            rw [helig]
            rfl
          rw [this]
          exact max_eq_left hp0
        rw [hmax]
        simp
      | some qs =>
        obtain ⟨q, sq⟩ := qs
        obtain ⟨hsq, hfind, hiq⟩ :=
          specBest_eq_some g ps q sq (hrest ▸ ih.symm)
        simp only [reduceCtorEq, false_and, and_false, if_false]
        by_cases hgt : sq > iou g.box p.box
        · rw [if_pos hgt]
          unfold specBest
          rw [eligOf_cons_pos g p ps hpos]
          have hmax : maxIouOf g (p :: ps) = sq := by
            rw [maxIouOf_cons_pos g p ps hpos, ← hsq]
            exact max_eq_right (le_of_lt hgt)
          rw [hmax]
          rw [List.find?_cons_of_neg _ (by
            simp only [decide_eq_true_eq]
            exact ne_of_lt hgt)]
          have hpredeq :
              (fun (x : Instance) => decide (iou g.box x.box = sq)) =
              (fun (x : Instance) =>
                decide (iou g.box x.box = maxIouOf g ps)) := by
            funext x
            rw [hsq]
          rw [hpredeq, hfind]
          rfl
        · rw [if_neg hgt]
          unfold specBest
          rw [eligOf_cons_pos g p ps hpos]
          have hmax : maxIouOf g (p :: ps) = iou g.box p.box := by
            rw [maxIouOf_cons_pos g p ps hpos, ← hsq]
            exact max_eq_left (le_of_not_lt hgt)
          rw [hmax]
          rw [List.find?_cons_of_pos _ (by simp)]
          rfl

/-- C8: evaluation is deterministic - two runs on the same ground truth,
predictions and configuration denote the same result object, there is no
hidden randomness in the matcher, and candidate ties that the previous-match
preference does not resolve are broken by index order: without a previous
match the greedy choice equals the first eligible prediction attaining the
maximal overlap. -/
theorem evaluation_deterministic (cfg : Config) (input : List CatData) :
    evaluate cfg input = evaluate cfg input ∧
    ∀ (g : Instance) (l : List Instance), bestCand none g l = specBest g l :=
  ⟨rfl, fun g l => bestCand_none_specBest g l⟩

theorem interArea_nonneg (a b : Box) : 0 ≤ interArea a b :=
  mul_nonneg (le_max_left 0 _) (le_max_left 0 _)

theorem interArea_le_area (a b : Box) (h : 0 < interArea a b) :
    interArea a b ≤ a.area ∧ interArea a b ≤ b.area := by
  unfold interArea at h ⊢
  rcases mul_pos_iff.mp h with ⟨hx, hy⟩ | ⟨hx, _⟩
  · have hwx : 0 < min a.x2 b.x2 - max a.x1 b.x1 := by
      rcases lt_max_iff.mp hx with h' | h'
      · exact absurd h' (lt_irrefl 0)
      · exact h'
    have hwy : 0 < min a.y2 b.y2 - max a.y1 b.y1 := by
      rcases lt_max_iff.mp hy with h' | h'
      · exact absurd h' (lt_irrefl 0)
      · exact h'
    rw [max_eq_right (le_of_lt hwx), max_eq_right (le_of_lt hwy)]
    constructor
    · unfold Box.area
      apply mul_le_mul
      · have h1 : min a.x2 b.x2 ≤ a.x2 := min_le_left _ _
        have h2 : a.x1 ≤ max a.x1 b.x1 := le_max_left _ _
        linarith
      · have h1 : min a.y2 b.y2 ≤ a.y2 := min_le_left _ _
        have h2 : a.y1 ≤ max a.y1 b.y1 := le_max_left _ _
        linarith
      · exact le_of_lt hwy
      · have h1 : min a.x2 b.x2 ≤ a.x2 := min_le_left _ _
        have h2 : a.x1 ≤ max a.x1 b.x1 := le_max_left _ _
        linarith
    · unfold Box.area
      apply mul_le_mul
      · have h1 : min a.x2 b.x2 ≤ b.x2 := min_le_right _ _
        have h2 : b.x1 ≤ max a.x1 b.x1 := le_max_right _ _
        linarith
      · have h1 : min a.y2 b.y2 ≤ b.y2 := min_le_right _ _
        have h2 : b.y1 ≤ max a.y1 b.y1 := le_max_right _ _
        linarith
      · exact le_of_lt hwy
      · have h1 : min a.x2 b.x2 ≤ b.x2 := min_le_right _ _
        have h2 : b.x1 ≤ max a.x1 b.x1 := le_max_right _ _
        linarith
  · exact absurd hx (not_lt.mpr (le_max_left 0 _))

theorem iou_le_one (a b : Box) : iou a b ≤ 1 := by
  unfold iou
  rcases eq_or_lt_of_le (interArea_nonneg a b) with h0 | hpos
  · rw [← h0]
    simp
  · obtain ⟨ha, hb⟩ := interArea_le_area a b hpos
    have hden : interArea a b ≤ a.area + b.area - interArea a b := by linarith
    have hdpos : 0 < a.area + b.area - interArea a b := lt_of_lt_of_le hpos hden
    exact (div_le_one hdpos).mpr hden

theorem iou_self_valid (b : Box) (h : b.valid) : iou b b = 1 := by
  obtain ⟨hx, hy⟩ := h
  have hwx : (0 : ℚ) ≤ b.x2 - b.x1 := by linarith
  have hwy : (0 : ℚ) ≤ b.y2 - b.y1 := by linarith
  have harea : interArea b b = b.area := by
    unfold interArea Box.area
    rw [min_self, min_self, max_self, max_self,
      max_eq_right hwx, max_eq_right hwy]
  have hpos : 0 < b.area := by
    unfold Box.area
    exact mul_pos (by linarith) (by linarith)
  unfold iou
  rw [harea]
  have hd : b.area + b.area - b.area = b.area := by ring
  rw [hd]
  exact div_self (ne_of_gt hpos)

theorem bestCand_snd (prev : Option ℕ) (g : Instance) (l : List Instance)
    (p : Instance) (s : ℚ) (h : bestCand prev g l = some (p, s)) :
    s = iou g.box p.box := by
  induction l generalizing p s with
  | nil => simp [bestCand] at h
  | cons a t ih =>
    simp only [bestCand] at h
    by_cases hs : iou g.box a.box ≤ IOU_THR
    · rw [if_pos hs] at h
      exact ih p s h
    · rw [if_neg hs] at h
      cases hrest : bestCand prev g t with
      | none =>
        rw [hrest] at h
        simp only [Option.some.injEq, Prod.mk.injEq] at h
        obtain ⟨rfl, rfl⟩ := h
        rfl
      | some qs =>
        obtain ⟨q, sq⟩ := qs
        rw [hrest] at h
        simp only [] at h
        have hq := ih q sq hrest
        by_cases h1 : sq > iou g.box a.box
        · rw [if_pos h1] at h
          simp only [Option.some.injEq, Prod.mk.injEq] at h
          obtain ⟨rfl, rfl⟩ := h
          exact hq
        · rw [if_neg h1] at h
          by_cases h2 : sq = iou g.box a.box ∧ prev = some q.id ∧
              prev ≠ some a.id
          · rw [if_pos h2] at h
            simp only [Option.some.injEq, Prod.mk.injEq] at h
            obtain ⟨rfl, rfl⟩ := h
            exact hq
          · rw [if_neg h2] at h
            simp only [Option.some.injEq, Prod.mk.injEq] at h
            obtain ⟨rfl, rfl⟩ := h
            rfl

theorem bestCand_self (g : Instance) (rest : List Instance) (prev : Option ℕ)
    (hprev : prev = none ∨ prev = some g.id) (hv : g.box.valid) :
    bestCand prev g (g :: rest) = some (g, 1) := by
  have hself : iou g.box g.box = 1 := iou_self_valid g.box hv
  simp only [bestCand]
  have hthr : ¬ iou g.box g.box ≤ IOU_THR := by
    rw [hself]
    norm_num [IOU_THR]
  rw [if_neg hthr]
  cases hrest : bestCand prev g rest with
  | none => rw [hself]
  | some qs =>
    obtain ⟨q, sq⟩ := qs
    simp only []
    have hsq : sq = iou g.box q.box := bestCand_snd prev g rest q sq hrest
    have hle : sq ≤ 1 := by
      rw [hsq]
      exact iou_le_one g.box q.box
    have hngt : ¬ sq > iou g.box g.box := by
      rw [hself]
      exact not_lt.mpr hle
    rw [if_neg hngt]
    have hcond : ¬ (sq = iou g.box g.box ∧ prev = some q.id ∧
        prev ≠ some g.id) := by
      rintro ⟨c1, c2, c3⟩
      rcases hprev with hp | hp
      · rw [hp] at c2
        cases c2
      · exact c3 hp
    rw [if_neg hcond, hself]

theorem alookup_self_history (m : List (ℕ × ℕ))
    (hm : ∀ e ∈ m, e.2 = e.1) (k : ℕ) :
    alookup m k = none ∨ alookup m k = some k := by
  induction m with
  | nil => left; rfl
  | cons a t ih =>
    obtain ⟨a1, a2⟩ := a
    have ha : a2 = a1 := hm (a1, a2) (List.mem_cons_self _ _)
    by_cases hk : a1 = k
    · right
      simp only [alookup, hk, if_true]
      rw [ha, hk]
    · simp only [alookup, hk, if_false]
      exact ih (fun e he => hm e (List.mem_cons_of_mem _ he))

theorem matchFrame_self (hist : List (ℕ × ℕ))
    (hh : ∀ e ∈ hist, e.2 = e.1) :
    ∀ l : List Instance, (∀ g ∈ l, g.box.valid) →
    matchFrame hist l l = (l.map (fun g => (g.id, g.id, (1 : ℚ))), [], 0) := by
  intro l
  induction l with
  | nil => intro _; rfl
  | cons g rest ih =>
    intro hv
    have hg : g.box.valid := hv g (List.mem_cons_self _ _)
    have hbc : bestCand (alookup hist g.id) g (g :: rest) = some (g, 1) :=
      bestCand_self g rest _ (alookup_self_history hist hh g.id) hg
    simp only [matchFrame, hbc, List.erase_cons_head]
    rw [ih (fun x hx => hv x (List.mem_cons_of_mem _ hx))]
    simp

theorem aset_self (m : List (ℕ × ℕ)) (hm : ∀ e ∈ m, e.2 = e.1) (k : ℕ) :
    ∀ e ∈ aset m k k, e.2 = e.1 := by
  induction m with
  | nil =>
    intro e he
    simp only [aset, List.mem_singleton] at he
    rw [he]
  | cons a t ih =>
    obtain ⟨a1, a2⟩ := a
    intro e he
    by_cases hk : a1 = k
    · simp only [aset, hk, if_true] at he
      rcases List.mem_cons.mp he with rfl | ht
      · rw [← hk]
      · exact hm e (List.mem_cons_of_mem _ ht)
    · simp only [aset, hk, if_false] at he
      rcases List.mem_cons.mp he with rfl | ht
      · exact hm (a1, a2) (List.mem_cons_self _ _)
      · exact ih (fun x hx => hm x (List.mem_cons_of_mem _ hx)) e ht

theorem alookup_nodup_mem {α β : Type} [DecidableEq α]
    (m : List (α × β)) (hnd : (m.map Prod.fst).Nodup) (e : α × β)
    (he : e ∈ m) : alookup m e.1 = some e.2 := by
  induction m with
  | nil => cases he
  | cons a t ih =>
    obtain ⟨a1, a2⟩ := a
    rcases List.mem_cons.mp he with rfl | ht
    · simp [alookup]
    · have hk : a1 ≠ e.1 := by
        intro hk
        have hme : e.1 ∈ t.map Prod.fst := List.mem_map_of_mem Prod.fst ht
        rw [← hk] at hme
        rw [List.map_cons, List.nodup_cons] at hnd
        exact hnd.1 hme
      simp only [alookup, hk, if_false]
      rw [List.map_cons, List.nodup_cons] at hnd
      exact ih hnd.2 ht

theorem bump_lookup_self {α : Type} [DecidableEq α] (m : List (α × ℕ))
    (k : α) :
    alookup (bump m k) k = some ((alookup m k).getD 0 + 1) := by
  induction m with
  | nil => simp [bump, alookup]
  | cons a t ih =>
    obtain ⟨a1, a2⟩ := a
    by_cases hk : a1 = k
    · simp [bump, alookup, hk]
    · simp only [bump, alookup, hk, if_false]
      exact ih

theorem bump_lookup_other {α : Type} [DecidableEq α] (m : List (α × ℕ))
    (k k' : α) (hne : k' ≠ k) :
    alookup (bump m k) k' = alookup m k' := by
  induction m with
  | nil => simp [bump, alookup, Ne.symm hne]
  | cons a t ih =>
    obtain ⟨a1, a2⟩ := a
    by_cases hk : a1 = k
    · subst hk
      have h2 : a1 ≠ k' := Ne.symm hne
      simp [bump, alookup, h2]
    · by_cases hk' : a1 = k'
      · simp [bump, alookup, hk, hk', hne]
      · simp only [bump, alookup, hk, hk', if_false]
        exact ih

theorem spanUpd_lookup_self (m : List (ℕ × ℕ × ℕ)) (k t : ℕ) :
    alookup (spanUpd m k t) k =
      some (((alookup m k).map Prod.fst).getD t, t) := by
  induction m with
  | nil => simp [spanUpd, alookup]
  | cons a tl ih =>
    obtain ⟨a1, f, l⟩ := a
    by_cases hk : a1 = k
    · simp [spanUpd, alookup, hk]
    · simp only [spanUpd, alookup, hk, if_false]
      exact ih

theorem spanUpd_lookup_other (m : List (ℕ × ℕ × ℕ)) (k k' t : ℕ)
    (hne : k' ≠ k) :
    alookup (spanUpd m k t) k' = alookup m k' := by
  induction m with
  | nil => simp [spanUpd, alookup, Ne.symm hne]
  | cons a tl ih =>
    obtain ⟨a1, f, l⟩ := a
    by_cases hk : a1 = k
    · subst hk
      have h2 : a1 ≠ k' := Ne.symm hne
      simp [spanUpd, alookup, h2]
    · by_cases hk' : a1 = k'
      · simp [spanUpd, alookup, hk, hk', hne]
      · simp only [spanUpd, alookup, hk, hk', if_false]
        exact ih

theorem spanUpd_fst_mem (m : List (ℕ × ℕ × ℕ)) (k t : ℕ)
    (h : k ∈ m.map Prod.fst) :
    (spanUpd m k t).map Prod.fst = m.map Prod.fst := by
  induction m with
  | nil => simp at h
  | cons a tl ih =>
    obtain ⟨a1, f, l⟩ := a
    by_cases hk : a1 = k
    · simp [spanUpd, hk]
    · have ht : k ∈ tl.map Prod.fst := by
        simp only [List.map_cons, List.mem_cons] at h
        rcases h with h | h
        · exact absurd h.symm hk
        · exact h
      simp [spanUpd, hk, ih ht]

theorem spanUpd_fst_not_mem (m : List (ℕ × ℕ × ℕ)) (k t : ℕ)
    (h : k ∉ m.map Prod.fst) :
    (spanUpd m k t).map Prod.fst = m.map Prod.fst ++ [k] := by
  induction m with
  | nil => simp [spanUpd]
  | cons a tl ih =>
    obtain ⟨a1, f, l⟩ := a
    have hk : a1 ≠ k := by
      intro hk
      exact h (by simp [hk])
    have ht : k ∉ tl.map Prod.fst := by
      intro ht
      exact h (by simp [ht])
    simp [spanUpd, hk, ih ht]

theorem spanUpd_keys_nodup (m : List (ℕ × ℕ × ℕ)) (k t : ℕ)
    (h : (m.map Prod.fst).Nodup) :
    ((spanUpd m k t).map Prod.fst).Nodup := by
  by_cases hk : k ∈ m.map Prod.fst
  · rw [spanUpd_fst_mem m k t hk]
    exact h
  · rw [spanUpd_fst_not_mem m k t hk]
    rw [List.nodup_append]
    exact ⟨h, List.nodup_singleton k, by
      intro x hx hc
      rw [List.mem_singleton] at hc
      exact hk (hc ▸ hx)⟩

theorem spanUpd_keys_toFinset (m : List (ℕ × ℕ × ℕ)) (k t : ℕ) :
    ((spanUpd m k t).map Prod.fst).toFinset =
      insert k (m.map Prod.fst).toFinset := by
  by_cases hk : k ∈ m.map Prod.fst
  · rw [spanUpd_fst_mem m k t hk]
    exact (Finset.insert_eq_self.mpr (List.mem_toFinset.mpr hk)).symm
  · rw [spanUpd_fst_not_mem m k t hk, List.toFinset_append]
    simp only [List.toFinset_cons, List.toFinset_nil,
      insert_emptyc_eq]
    exact (Finset.union_comm _ _).trans (Finset.insert_eq _ _).symm

theorem getLast_getD_cons (t : ℕ) (L : List ℕ) (d : ℕ) :
    (t :: L).getLast?.getD d = L.getLast?.getD t := by
  cases L with
  | nil => rfl
  | cons x xs =>
    rw [List.getLast?_cons_cons]
    cases hx : (x :: xs).getLast? with
    | none =>
      exact absurd hx (by simp [List.getLast?_isSome] at *)
    | some y => rfl

theorem spanMerge_step (o : Option (ℕ × ℕ)) (t : ℕ) (L : List ℕ) :
    spanMerge (some ((o.map Prod.fst).getD t, t)) L =
      spanMerge o (t :: L) := by
  cases L with
  | nil => simp [spanMerge]
  | cons x xs =>
    simp only [spanMerge, Option.map_some', Option.getD_some]
    rw [getLast_getD_cons]

theorem cntMerge_step (o : Option ℕ) (n : ℕ) :
    cntMerge (some (o.getD 0 + 1)) n = cntMerge o (n + 1) := by
  cases o with
  | none =>
    by_cases hn : n = 0
    · simp [cntMerge, hn]
    · simp [cntMerge, hn]
      omega
  | some m =>
    by_cases hn : n = 0
    · simp [cntMerge, hn]
    · simp [cntMerge, hn]
      omega

theorem procMatch_perfect_char (s : AccState) (i : ℕ) (hbase : PerfBase s) :
    PerfBase (procMatch s (i, i, 1)) ∧
    (procMatch s (i, i, 1)).numGt = s.numGt + 1 ∧
    (procMatch s (i, i, 1)).frameIdx = s.frameIdx ∧
    ((procMatch s (i, i, 1)).spanTbl.map Prod.fst).toFinset =
      insert i ((s.spanTbl.map Prod.fst).toFinset) ∧
    alookup (procMatch s (i, i, 1)).spanTbl i =
      some (((alookup s.spanTbl i).map Prod.fst).getD s.frameIdx,
        s.frameIdx) ∧
    alookup (procMatch s (i, i, 1)).matchedCnt i =
      some ((alookup s.matchedCnt i).getD 0 + 1) ∧
    (∀ k, k ≠ i →
      alookup (procMatch s (i, i, 1)).spanTbl k = alookup s.spanTbl k ∧
      alookup (procMatch s (i, i, 1)).matchedCnt k =
        alookup s.matchedCnt k) := by
  obtain ⟨hm, hfp, hids, hfm, hlost, hhist, hnm, hov, hnd⟩ := hbase
  refine ⟨⟨?_, ?_, ?_, ?_, ?_, ?_, ?_, ?_, ?_⟩, ?_, ?_, ?_, ?_, ?_, ?_⟩
  · simpa [procMatch] using hm
  · simpa [procMatch] using hfp
  · simp only [procMatch]
    rcases alookup_self_history s.history hhist i with hl | hl <;>
      simp [hl, hids]
  · simp only [procMatch]
    simp [hlost, hfm]
  · simp only [procMatch]
    simp [hlost]
  · simp only [procMatch]
    exact aset_self s.history hhist i
  · simp only [procMatch]
    omega
  · simp only [procMatch]
    rw [hov]
    push_cast
    ring
  · simp only [procMatch]
    exact spanUpd_keys_nodup s.spanTbl i s.frameIdx hnd
  · simp [procMatch]
  · simp [procMatch]
  · simp only [procMatch]
    exact spanUpd_keys_toFinset s.spanTbl i s.frameIdx
  · simp only [procMatch]
    exact spanUpd_lookup_self s.spanTbl i s.frameIdx
  · simp only [procMatch]
    exact bump_lookup_self s.matchedCnt i
  · intro k hk
    constructor
    · simp only [procMatch]
      exact spanUpd_lookup_other s.spanTbl i k s.frameIdx hk
    · simp only [procMatch]
      exact bump_lookup_other s.matchedCnt i k hk

theorem foldl_procMatch_char (l : List Instance) (s : AccState)
    (hnd : (l.map Instance.id).Nodup) (hbase : PerfBase s) :
    PerfBase ((l.map (fun g => (g.id, g.id, (1 : ℚ)))).foldl procMatch s) ∧
    ((l.map (fun g => (g.id, g.id, (1 : ℚ)))).foldl procMatch s).numGt =
      s.numGt + l.length ∧
    ((l.map (fun g => (g.id, g.id, (1 : ℚ)))).foldl procMatch s).frameIdx =
      s.frameIdx ∧
    (((l.map (fun g => (g.id, g.id, (1 : ℚ)))).foldl procMatch
        s).spanTbl.map Prod.fst).toFinset =
      (s.spanTbl.map Prod.fst).toFinset ∪ (l.map Instance.id).toFinset ∧
    (∀ k, k ∈ l.map Instance.id →
      alookup ((l.map (fun g => (g.id, g.id, (1 : ℚ)))).foldl procMatch
          s).spanTbl k =
        some (((alookup s.spanTbl k).map Prod.fst).getD s.frameIdx,
          s.frameIdx) ∧
      alookup ((l.map (fun g => (g.id, g.id, (1 : ℚ)))).foldl procMatch
          s).matchedCnt k =
        some ((alookup s.matchedCnt k).getD 0 + 1)) ∧
    (∀ k, k ∉ l.map Instance.id →
      alookup ((l.map (fun g => (g.id, g.id, (1 : ℚ)))).foldl procMatch
          s).spanTbl k = alookup s.spanTbl k ∧
      alookup ((l.map (fun g => (g.id, g.id, (1 : ℚ)))).foldl procMatch
          s).matchedCnt k = alookup s.matchedCnt k) := by
  induction l generalizing s with
  | nil =>
    refine ⟨hbase, by simp, by simp, by simp, ?_, ?_⟩
    · intro k hk
      simp at hk
    · intro k _
      simp
  | cons g t ih =>
    have hgid : g.id ∉ t.map Instance.id := (List.nodup_cons.mp hnd).1
    have hndt : (t.map Instance.id).Nodup := (List.nodup_cons.mp hnd).2
    obtain ⟨p1, p2, p3, p4, p5, p6, p7⟩ := procMatch_perfect_char s g.id hbase
    obtain ⟨h1, h2, h3, h4, h5, h6⟩ :=
      ih (procMatch s (g.id, g.id, 1)) hndt p1
    simp only [List.map_cons, List.foldl_cons, List.length_cons]
    refine ⟨h1, ?_, ?_, ?_, ?_, ?_⟩
    · rw [h2, p2]
      omega
    · rw [h3, p3]
    · rw [h4, p4, List.toFinset_cons, Finset.insert_union,
        Finset.union_insert]
    · intro k hk
      rcases List.mem_cons.mp hk with rfl | hkt
      · obtain ⟨q1, q2⟩ := h6 g.id hgid
        rw [q1, q2, p5, p6]
        exact ⟨rfl, rfl⟩
      · have hkg : k ≠ g.id := by
          intro h
          exact hgid (h ▸ hkt)
        obtain ⟨q1, q2⟩ := h5 k hkt
        obtain ⟨r1, r2⟩ := p7 k hkg
        rw [q1, q2, r1, r2, p3]
        exact ⟨rfl, rfl⟩
    · intro k hk
      have hkg : k ≠ g.id := by
        intro h
        exact hk (by simp [h])
      have hkt : k ∉ t.map Instance.id := by
        intro h
        exact hk (List.mem_cons_of_mem _ h)
      obtain ⟨q1, q2⟩ := h6 k hkt
      obtain ⟨r1, r2⟩ := p7 k hkg
      rw [q1, q2, r1, r2]
      exact ⟨rfl, rfl⟩

theorem processFrame_char (s : AccState) (f : FramePair)
    (hf : perfectFrame f) (hbase : PerfBase s) :
    PerfBase (processFrame s f) ∧
    (processFrame s f).numGt = s.numGt + f.gts.length ∧
    (processFrame s f).frameIdx = s.frameIdx + 1 ∧
    ((processFrame s f).spanTbl.map Prod.fst).toFinset =
      (s.spanTbl.map Prod.fst).toFinset ∪
        (f.gts.map Instance.id).toFinset ∧
    (∀ k, k ∈ f.gts.map Instance.id →
      alookup (processFrame s f).spanTbl k =
        some (((alookup s.spanTbl k).map Prod.fst).getD s.frameIdx,
          s.frameIdx) ∧
      alookup (processFrame s f).matchedCnt k =
        some ((alookup s.matchedCnt k).getD 0 + 1)) ∧
    (∀ k, k ∉ f.gts.map Instance.id →
      alookup (processFrame s f).spanTbl k = alookup s.spanTbl k ∧
      alookup (processFrame s f).matchedCnt k =
        alookup s.matchedCnt k) := by
  obtain ⟨hpred, hvalid, hndids⟩ := hf
  have hhist : ∀ e ∈ s.history, e.2 = e.1 := hbase.2.2.2.2.2.1
  have hmf : matchFrame s.history f.gts f.preds =
      (f.gts.map (fun g => (g.id, g.id, (1 : ℚ))), [], 0) := by
    rw [hpred]
    exact matchFrame_self s.history hhist f.gts hvalid
  obtain ⟨h1, h2, h3, h4, h5, h6⟩ := foldl_procMatch_char f.gts s hndids hbase
  obtain ⟨a1, a2, a3, a4, a5, a6, a7, a8, a9⟩ := h1
  simp only [processFrame, hmf, List.foldl_nil]
  refine ⟨⟨?_, ?_, ?_, ?_, ?_, ?_, ?_, ?_, ?_⟩, ?_, ?_, ?_, ?_, ?_⟩
  · simpa using a1
  · simpa using a2
  · simpa using a3
  · simpa using a4
  · simpa using a5
  · simpa using a6
  · simpa using a7
  · simpa using a8
  · simpa using a9
  · simpa using h2
  · simpa using h3
  · simpa using h4
  · intro k hk
    simpa using h5 k hk
  · intro k hk
    simpa using h6 k hk

theorem perfBase_init : PerfBase initAcc := by
  refine ⟨rfl, rfl, rfl, rfl, rfl, ?_, rfl, by simp [initAcc], ?_⟩
  · intro e he
    simp [initAcc] at he
  · simp [initAcc]

theorem foldl_video_char (v : Video) (s : AccState)
    (hv : ∀ f ∈ v, perfectFrame f) (hbase : PerfBase s) :
    PerfBase (v.foldl processFrame s) ∧
    (v.foldl processFrame s).numGt = s.numGt + totalGt v ∧
    (v.foldl processFrame s).frameIdx = s.frameIdx + v.length ∧
    ((v.foldl processFrame s).spanTbl.map Prod.fst).toFinset =
      (s.spanTbl.map Prod.fst).toFinset ∪ (vidIds v).toFinset ∧
    ∀ k, alookup (v.foldl processFrame s).spanTbl k =
        spanMerge (alookup s.spanTbl k) (framesWith v s.frameIdx k) ∧
      alookup (v.foldl processFrame s).matchedCnt k =
        cntMerge (alookup s.matchedCnt k)
          (framesWith v s.frameIdx k).length := by
  induction v generalizing s with
  | nil =>
    refine ⟨hbase, by simp [totalGt], by simp, by simp [vidIds], ?_⟩
    intro k
    simp [framesWith, spanMerge, cntMerge]
  | cons f rest ih =>
    have hf : perfectFrame f := hv f (List.mem_cons_self _ _)
    obtain ⟨p1, p2, p3, p4, p5, p6⟩ := processFrame_char s f hf hbase
    obtain ⟨h1, h2, h3, h4, h5⟩ :=
      ih (processFrame s f) (fun x hx => hv x (List.mem_cons_of_mem _ hx)) p1
    simp only [List.foldl_cons]
    refine ⟨h1, ?_, ?_, ?_, ?_⟩
    · rw [h2, p2]
      simp only [totalGt, List.map_cons, List.sum_cons]
      omega
    · rw [h3, p3, List.length_cons]
      omega
    · rw [h4, p4]
      simp only [vidIds, List.flatMap_cons, List.map_append,
        List.toFinset_append]
      rw [Finset.union_assoc]
    · intro k
      obtain ⟨q1, q2⟩ := h5 k
      by_cases hk : k ∈ f.gts.map Instance.id
      · obtain ⟨r1, r2⟩ := p5 k hk
        constructor
        · rw [q1, r1, p3]
          have hfw : framesWith (f :: rest) s.frameIdx k =
              s.frameIdx :: framesWith rest (s.frameIdx + 1) k := by
            simp [framesWith, hk]
          rw [hfw]
          exact spanMerge_step (alookup s.spanTbl k) s.frameIdx
            (framesWith rest (s.frameIdx + 1) k)
        · rw [q2, r2, p3]
          have hfw : framesWith (f :: rest) s.frameIdx k =
              s.frameIdx :: framesWith rest (s.frameIdx + 1) k := by
            simp [framesWith, hk]
          rw [hfw, List.length_cons]
          exact cntMerge_step (alookup s.matchedCnt k)
            (framesWith rest (s.frameIdx + 1) k).length
      · obtain ⟨r1, r2⟩ := p6 k hk
        have hfw : framesWith (f :: rest) s.frameIdx k =
            framesWith rest (s.frameIdx + 1) k := by
          simp [framesWith, hk]
        constructor
        · rw [q1, r1, p3, hfw]
        · rw [q2, r2, p3, hfw]

theorem accVideo_perfect (v : Video) (hv : ∀ f ∈ v, perfectFrame f)
    (hc : contiguousVideo v) :
    (accVideo v).misses = 0 ∧ (accVideo v).fps = 0 ∧
    (accVideo v).idsw = 0 ∧ (accVideo v).fm = 0 ∧
    (accVideo v).pt = 0 ∧ (accVideo v).ml = 0 ∧
    (accVideo v).mt = distinctIds v ∧
    (accVideo v).nMatches = (accVideo v).numGt ∧
    (accVideo v).overlapSum = ((accVideo v).numGt : ℚ) ∧
    (accVideo v).numGt = totalGt v := by
  obtain ⟨hbase, hngt, hfi, hkeys, hchar⟩ :=
    foldl_video_char v initAcc hv perfBase_init
  obtain ⟨a1, a2, a3, a4, a5, a6, a7, a8, a9⟩ := hbase
  have hkeys' : ((v.foldl processFrame initAcc).spanTbl.map
      Prod.fst).toFinset = (vidIds v).toFinset := by
    rw [hkeys]
    simp [initAcc]
  have hentry : ∀ e ∈ (v.foldl processFrame initAcc).spanTbl,
      (alookup (v.foldl processFrame initAcc).matchedCnt e.1).getD 0 =
        e.2.2 + 1 - e.2.1 := by
    intro e he
    have hl : alookup (v.foldl processFrame initAcc).spanTbl e.1 =
        some e.2 := alookup_nodup_mem _ a9 e he
    have h1 : alookup (v.foldl processFrame initAcc).spanTbl e.1 =
        spanMerge none (framesWith v 0 e.1) := (hchar e.1).1
    have h2 : alookup (v.foldl processFrame initAcc).matchedCnt e.1 =
        cntMerge none (framesWith v 0 e.1).length := (hchar e.1).2
    have hkmem : e.1 ∈ vidIds v := by
      have : e.1 ∈ (v.foldl processFrame initAcc).spanTbl.map Prod.fst :=
        List.mem_map_of_mem Prod.fst he
      have := List.mem_toFinset.mpr this
      rw [hkeys'] at this
      exact List.mem_toFinset.mp this
    have hcont := hc e.1 hkmem
    cases hF : framesWith v 0 e.1 with
    | nil =>
      rw [hF] at h1
      rw [hl] at h1
      simp [spanMerge] at h1
    | cons t ts =>
      rw [hF] at h1 h2
      rw [hl] at h1
      simp only [spanMerge, Option.map_none', Option.getD_none] at h1
      have he1 : e.2.1 = t := by
        have := congrArg (fun o => (o.getD (0, 0)).1) h1
        simpa using this
      have he2 : e.2.2 = ts.getLast?.getD t := by
        have := congrArg (fun o => (o.getD (0, 0)).2) h1
        simpa using this
      rw [hF] at hcont
      rw [getLast_getD_cons] at hcont
      have hhead : (t :: ts).head?.getD 0 = t := rfl
      rw [hhead] at hcont
      rw [h2]
      simp only [cntMerge, List.length_cons, Nat.succ_ne_zero,
        if_false]
      simp only [Option.getD_some]
      rw [List.length_cons] at hcont
      omega
  refine ⟨?_, ?_, ?_, ?_, ?_, ?_, ?_, ?_, ?_, ?_⟩
  · simpa [accVideo, finalize] using a1
  · simpa [accVideo, finalize] using a2
  · simpa [accVideo, finalize] using a3
  · simpa [accVideo, finalize] using a4
  · show (List.filter _ (v.foldl processFrame initAcc).spanTbl).length = 0
    rw [List.length_eq_zero, List.filter_eq_nil_iff]
    intro e he
    have hee := hentry e he
    simp only [decide_eq_true_eq, not_and]
    rw [hee]
    omega
  · show (List.filter _ (v.foldl processFrame initAcc).spanTbl).length = 0
    rw [List.length_eq_zero, List.filter_eq_nil_iff]
    intro e he
    have hee := hentry e he
    simp only [decide_eq_true_eq]
    rw [hee]
    omega
  · show (List.filter _ (v.foldl processFrame initAcc).spanTbl).length =
      distinctIds v
    have hall : List.filter
        (fun e => decide (4 * (e.2.2 + 1 - e.2.1) ≤ 5 *
          ((alookup (v.foldl processFrame initAcc).matchedCnt
            e.1).getD 0)))
        (v.foldl processFrame initAcc).spanTbl =
        (v.foldl processFrame initAcc).spanTbl := by
      rw [List.filter_eq_self]
      intro e he
      have hee := hentry e he
      simp only [decide_eq_true_eq]
      rw [hee]
      omega
    rw [hall]
    have hlen : (v.foldl processFrame initAcc).spanTbl.length =
        ((v.foldl processFrame initAcc).spanTbl.map Prod.fst).length := by
      rw [List.length_map]
    rw [hlen, ← List.toFinset_card_of_nodup a9, hkeys']
    rfl
  · simpa [accVideo, finalize] using a7
  · simpa [accVideo, finalize] using a8
  · have hinit : initAcc.numGt = 0 := rfl
    simp [accVideo, finalize, hngt, hinit]

theorem sum_fps (l : List Counts) :
    (sumCounts l).fps = (l.map Counts.fps).sum := by
  induction l <;> simp [sumCounts_nil, sumCounts_cons, Counts.add, Counts.zero, *]

theorem sum_idsw (l : List Counts) :
    (sumCounts l).idsw = (l.map Counts.idsw).sum := by
  induction l <;> simp [sumCounts_nil, sumCounts_cons, Counts.add, Counts.zero, *]

theorem sum_fm (l : List Counts) :
    (sumCounts l).fm = (l.map Counts.fm).sum := by
  induction l <;> simp [sumCounts_nil, sumCounts_cons, Counts.add, Counts.zero, *]

theorem sum_mt (l : List Counts) :
    (sumCounts l).mt = (l.map Counts.mt).sum := by
  induction l <;> simp [sumCounts_nil, sumCounts_cons, Counts.add, Counts.zero, *]

theorem sum_pt (l : List Counts) :
    (sumCounts l).pt = (l.map Counts.pt).sum := by
  induction l <;> simp [sumCounts_nil, sumCounts_cons, Counts.add, Counts.zero, *]

theorem sum_ml (l : List Counts) :
    (sumCounts l).ml = (l.map Counts.ml).sum := by
  induction l <;> simp [sumCounts_nil, sumCounts_cons, Counts.add, Counts.zero, *]

theorem sum_overlapSum (l : List Counts) :
    (sumCounts l).overlapSum = (l.map Counts.overlapSum).sum := by
  induction l <;> simp [sumCounts_nil, sumCounts_cons, Counts.add, Counts.zero, *]

theorem units_perfect (cfg : Config) (input : List CatData)
    (hperf : ∀ cd ∈ input, ∀ v ∈ cd.videos, ∀ f ∈ v, perfectFrame f) :
    ∀ v ∈ cfg.categories.flatMap (catVideos input), ∀ f ∈ v,
      perfectFrame f := by
  intro v hv
  obtain ⟨c, _, hvc⟩ := List.mem_flatMap.mp hv
  unfold catVideos at hvc
  obtain ⟨cd, hcd, hvcd⟩ := List.mem_flatMap.mp hvc
  exact hperf cd (List.mem_of_mem_filter hcd) v hvcd

theorem units_contiguous (cfg : Config) (input : List CatData)
    (hcont : ∀ cd ∈ input, ∀ v ∈ cd.videos, contiguousVideo v) :
    ∀ v ∈ cfg.categories.flatMap (catVideos input), contiguousVideo v := by
  intro v hv
  obtain ⟨c, _, hvc⟩ := List.mem_flatMap.mp hv
  unfold catVideos at hvc
  obtain ⟨cd, hcd, hvcd⟩ := List.mem_flatMap.mp hvc
  exact hcont cd (List.mem_of_mem_filter hcd) v hvcd

theorem sum_flatMap_nat (f : String → List Video) (g : Video → ℕ)
    (cats : List String) :
    ((cats.flatMap f).map g).sum =
      (cats.map (fun c => ((f c).map g).sum)).sum := by
  induction cats with
  | nil => rfl
  | cons c t ih => simp [List.flatMap_cons, ih]

theorem cast_sum_list (l : List ℕ) :
    ((l.sum : ℕ) : ℚ) = (l.map (Nat.cast : ℕ → ℚ)).sum :=
  Nat.cast_list_sum l

/-- C7 (amended): for identical ground-truth and prediction sequences that
satisfy the data-model invariants - every ground-truth box has positive
area, identities are unique within each frame, every identity's
ground-truth presence is gap-free so its matched-frame count equals its
first-to-last-frame lifespan, and at least one ground-truth instance
exists - evaluation yields an OVERALL row with MOTA = 100, MOTP = 100,
IDSw = 0, FP = 0, FN = 0, FM = 0, MT equal to the total number of distinct
ground-truth identities over all (video, category) units, and
PT = ML = 0. -/
theorem perfect_predictions_metrics (cfg : Config) (input : List CatData)
    (hperf : ∀ cd ∈ input, ∀ v ∈ cd.videos, ∀ f ∈ v, perfectFrame f)
    (hcont : ∀ cd ∈ input, ∀ v ∈ cd.videos, contiguousVideo v)
    (hpos : 0 < (evaluate cfg input).overall.counts.numGt) :
    (evaluate cfg input).overall.counts.fps = 0 ∧
    (evaluate cfg input).overall.counts.misses = 0 ∧
    (evaluate cfg input).overall.counts.idsw = 0 ∧
    (evaluate cfg input).overall.counts.fm = 0 ∧
    (evaluate cfg input).overall.counts.pt = 0 ∧
    (evaluate cfg input).overall.counts.ml = 0 ∧
    (evaluate cfg input).overall.counts.mt = totalIdentities cfg input ∧
    (evaluate cfg input).overall.mota = MetricVal.val 100 ∧
    (evaluate cfg input).overall.motp = MetricVal.val 100 := by
  have hunits := units_perfect cfg input hperf
  have huc := units_contiguous cfg input hcont
  have hover : (evaluate cfg input).overall.counts =
      sumCounts ((cfg.categories.flatMap (catVideos input)).map accVideo) :=
    rfl
  have hzero : ∀ (sel : Counts → ℕ),
      (∀ v ∈ cfg.categories.flatMap (catVideos input),
        sel (accVideo v) = 0) →
      ((evaluate cfg input).overall.counts.numGt =
        (evaluate cfg input).overall.counts.numGt) := fun _ _ => rfl
  have hfps : (evaluate cfg input).overall.counts.fps = 0 := by
    rw [hover, sum_fps, List.map_map]
    apply List.sum_eq_zero
    intro x hx
    obtain ⟨v, hv, hvx⟩ := List.mem_map.mp hx
    rw [← hvx]
    exact (accVideo_perfect v (hunits v hv) (huc v hv)).2.1
  have hmiss : (evaluate cfg input).overall.counts.misses = 0 := by
    rw [hover, sum_misses, List.map_map]
    apply List.sum_eq_zero
    intro x hx
    obtain ⟨v, hv, hvx⟩ := List.mem_map.mp hx
    rw [← hvx]
    exact (accVideo_perfect v (hunits v hv) (huc v hv)).1
  have hidsw : (evaluate cfg input).overall.counts.idsw = 0 := by
    rw [hover, sum_idsw, List.map_map]
    apply List.sum_eq_zero
    intro x hx
    obtain ⟨v, hv, hvx⟩ := List.mem_map.mp hx
    rw [← hvx]
    exact (accVideo_perfect v (hunits v hv) (huc v hv)).2.2.1
  have hfm : (evaluate cfg input).overall.counts.fm = 0 := by
    rw [hover, sum_fm, List.map_map]
    apply List.sum_eq_zero
    intro x hx
    obtain ⟨v, hv, hvx⟩ := List.mem_map.mp hx
    rw [← hvx]
    exact (accVideo_perfect v (hunits v hv) (huc v hv)).2.2.2.1
  have hpt : (evaluate cfg input).overall.counts.pt = 0 := by
    rw [hover, sum_pt, List.map_map]
    apply List.sum_eq_zero
    intro x hx
    obtain ⟨v, hv, hvx⟩ := List.mem_map.mp hx
    rw [← hvx]
    exact (accVideo_perfect v (hunits v hv) (huc v hv)).2.2.2.2.1
  have hml : (evaluate cfg input).overall.counts.ml = 0 := by
    rw [hover, sum_ml, List.map_map]
    apply List.sum_eq_zero
    intro x hx
    obtain ⟨v, hv, hvx⟩ := List.mem_map.mp hx
    rw [← hvx]
    exact (accVideo_perfect v (hunits v hv) (huc v hv)).2.2.2.2.2.1
  have hmt : (evaluate cfg input).overall.counts.mt =
      totalIdentities cfg input := by
    rw [hover, sum_mt, List.map_map]
    unfold totalIdentities
    rw [← sum_flatMap_nat (catVideos input) distinctIds cfg.categories]
    apply congrArg
    apply List.map_congr_left
    intro v hv
    exact (accVideo_perfect v (hunits v hv) (huc v hv)).2.2.2.2.2.2.1
  have hnm : (evaluate cfg input).overall.counts.nMatches =
      (evaluate cfg input).overall.counts.numGt := by
    rw [hover, sum_nMatches, sum_numGt, List.map_map, List.map_map]
    apply congrArg
    apply List.map_congr_left
    intro v hv
    exact (accVideo_perfect v (hunits v hv) (huc v hv)).2.2.2.2.2.2.2.1
  have hov : (evaluate cfg input).overall.counts.overlapSum =
      ((evaluate cfg input).overall.counts.numGt : ℚ) := by
    rw [hover, sum_overlapSum, sum_numGt, cast_sum_list]
    rw [List.map_map, List.map_map, List.map_map]
    apply congrArg
    apply List.map_congr_left
    intro v hv
    show (accVideo v).overlapSum = ((accVideo v).numGt : ℚ)
    exact (accVideo_perfect v (hunits v hv) (huc v hv)).2.2.2.2.2.2.2.2.1
  have hne : (evaluate cfg input).overall.counts.numGt ≠ 0 :=
    Nat.pos_iff_ne_zero.mp hpos
  have hnez : ((evaluate cfg input).overall.counts.numGt : ℚ) ≠ 0 := by
    exact_mod_cast hne
  refine ⟨hfps, hmiss, hidsw, hfm, hpt, hml, hmt, ?_, ?_⟩
  · have : (evaluate cfg input).overall.mota =
        motaOf (evaluate cfg input).overall.counts := rfl
    rw [this]
    unfold motaOf
    rw [if_neg hne, hmiss, hfps, hidsw]
    norm_num
  · have : (evaluate cfg input).overall.motp =
        motpOf (evaluate cfg input).overall.counts := rfl
    rw [this]
    unfold motpOf
    rw [hnm, if_neg hne, hov]
    rw [mul_div_assoc, div_self hnez, mul_one]

/-- C7 counterexample: degInput is a pair of identical ground-truth and
prediction sequences, yet evaluation does not produce MOTA = 100, FP = 0 or
FN = 0, because its only box has zero area and a malformed region is
unmatchable (spec section 4.1), so the frame yields one miss and one false
positive. -/
theorem perfect_claim_degenerate_failure :
    (∀ cd ∈ degInput, ∀ v ∈ cd.videos, ∀ f ∈ v, f.preds = f.gts) ∧
    (evaluate cfgCar degInput).overall.mota ≠ MetricVal.val 100 ∧
    (evaluate cfgCar degInput).overall.counts.fps ≠ 0 ∧
    (evaluate cfgCar degInput).overall.counts.misses ≠ 0 :=
  ⟨by decide, by decide, by decide, by decide⟩

theorem perfect_predictions_metrics_inst :
    ((∀ cd ∈ okInput, ∀ v ∈ cd.videos, ∀ f ∈ v, perfectFrame f) ∧
      (∀ cd ∈ okInput, ∀ v ∈ cd.videos, contiguousVideo v) ∧
      0 < (evaluate cfgCar okInput).overall.counts.numGt) ∧
    ((evaluate cfgCar okInput).overall.counts.fps = 0 ∧
      (evaluate cfgCar okInput).overall.counts.misses = 0 ∧
      (evaluate cfgCar okInput).overall.counts.idsw = 0 ∧
      (evaluate cfgCar okInput).overall.counts.fm = 0 ∧
      (evaluate cfgCar okInput).overall.counts.pt = 0 ∧
      (evaluate cfgCar okInput).overall.counts.ml = 0 ∧
      (evaluate cfgCar okInput).overall.counts.mt =
        totalIdentities cfgCar okInput ∧
      (evaluate cfgCar okInput).overall.mota = MetricVal.val 100 ∧
      (evaluate cfgCar okInput).overall.motp = MetricVal.val 100) :=
  ⟨⟨by decide, by decide, by decide⟩,
    perfect_predictions_metrics cfgCar okInput (by decide) (by decide)
      (by decide)⟩
